import Mathlib

/-!
Verification of the hook/task runner core (task specification model,
configuration store, resolution-and-execution engine) against its
natural-language specification.  The definitions below are a shallow
embedding of the Rust sources: `src/task.rs` (the `TaskSpec` model),
`src/config.rs` (merge, removal, comment stripping, hooks rewriting)
and `src/runner.rs` (the cycle-guarded execution engine).  Subprocess
execution is modelled by an oracle assigning an exit status to each
spawned invocation; the engine is given explicit fuel so that its
termination is a provable statement rather than an assumption.
-/

set_option maxHeartbeats 1000000

namespace Huk

/-- `TaskSpec` from src/task.rs: a bare command string, a detailed object
(optional command, optional description, dependency list), or an ordered
sequence of specs. -/
inductive TaskSpec where
  | single (cmd : String)
  | detailed (command : Option String) (description : Option String)
      (dependencies : List String)
  | sequence (items : List TaskSpec)

mutual

/-- Structural (derived `PartialEq`) equality on `TaskSpec`, as a decision
procedure. -/
def TaskSpec.decEq : (a b : TaskSpec) → Decidable (a = b)
  | .single a, .single b =>
      match String.decEq a b with
      | isTrue h => isTrue (by rw [h])
      | isFalse h => isFalse (fun hh => by cases hh; exact h rfl)
  | .single _, .detailed _ _ _ => isFalse (fun h => by cases h)
  | .single _, .sequence _ => isFalse (fun h => by cases h)
  | .detailed _ _ _, .single _ => isFalse (fun h => by cases h)
  | .detailed c d l, .detailed c2 d2 l2 =>
      if h : c = c2 ∧ d = d2 ∧ l = l2 then
        isTrue (by rw [h.1, h.2.1, h.2.2])
      else
        isFalse (fun hh => by cases hh; exact h ⟨rfl, rfl, rfl⟩)
  | .detailed _ _ _, .sequence _ => isFalse (fun h => by cases h)
  | .sequence _, .single _ => isFalse (fun h => by cases h)
  | .sequence _, .detailed _ _ _ => isFalse (fun h => by cases h)
  | .sequence a, .sequence b =>
      match TaskSpec.decEqList a b with
      | isTrue h => isTrue (by rw [h])
      | isFalse h => isFalse (fun hh => by cases hh; exact h rfl)

/-- Decidable equality on lists of `TaskSpec`. -/
def TaskSpec.decEqList : (xs ys : List TaskSpec) → Decidable (xs = ys)
  | [], [] => isTrue rfl
  | [], _ :: _ => isFalse (fun h => by cases h)
  | _ :: _, [] => isFalse (fun h => by cases h)
  | x :: xs, y :: ys =>
      match TaskSpec.decEq x y, TaskSpec.decEqList xs ys with
      | isTrue h1, isTrue h2 => isTrue (by rw [h1, h2])
      | isFalse h1, _ => isFalse (fun h => by cases h; exact h1 rfl)
      | isTrue _, isFalse h2 => isFalse (fun h => by cases h; exact h2 rfl)

end

instance : DecidableEq TaskSpec := TaskSpec.decEq

/-- Shallow model of `serde_json::Value`.  Objects are ordered association
lists (the crate is used with order-preserving maps: the source re-sorts
hook keys explicitly on write). -/
inductive Json where
  | null
  | bool (b : Bool)
  | num (n : Int)
  | str (s : String)
  | arr (items : List Json)
  | obj (fields : List (String × Json))

/-- `Value::as_str`. -/
def Json.asStr : Json → Option String
  | .str s => some s
  | _ => none

/-- Map lookup (`Map::get`) on an association list: first binding wins. -/
def lookupAssoc {α : Type} : List (String × α) → String → Option α
  | [], _ => none
  | (k, v) :: rest, key => if k = key then some v else lookupAssoc rest key

/-- `TaskSpecParseError` from src/task.rs. -/
inductive TaskSpecParseError where
  | invalidType (s : String)
  | missingCommandAndDeps
  | invalidDependencyType
deriving DecidableEq

/-- The string carried by `InvalidType` in `from_json`; the Rust source
computes it with `type_name_of_val(&other)`, so it is one fixed Rust type
name independent of the JSON value. -/
def invalidTypeName : String := "&&serde_json::value::Value"

/-- The `command` field of a task object:
`map.get("command").or_else(|| map.get("cmd")).and_then(|v| v.as_str())`. -/
def commandOf (map : List (String × Json)) : Option String :=
  (lookupAssoc map "command" <|> lookupAssoc map "cmd").bind Json.asStr

/-- The `description` field of a task object. -/
def descriptionOf (map : List (String × Json)) : Option String :=
  (lookupAssoc map "description").bind Json.asStr

/-- `map.get("dependencies").or_else(|| map.get("depends"))`. -/
def depsValueOf (map : List (String × Json)) : Option Json :=
  lookupAssoc map "dependencies" <|> lookupAssoc map "depends"

/-- The loop over a dependency array in `from_json`: collect string
entries, failing on the first non-string entry. -/
def collectDeps : List Json → Except TaskSpecParseError (List String)
  | [] => .ok []
  | .str name :: rest => (collectDeps rest).map (fun l => name :: l)
  | _ :: _ => .error .invalidDependencyType

/-- Dependency extraction in `from_json`: an array is collected
elementwise, a bare string becomes a one-element list, anything else
(including an absent field) yields the empty list. -/
def depsOf : Option Json → Except TaskSpecParseError (List String)
  | some (.arr deps) => collectDeps deps
  | some (.str name) => .ok [name]
  | _ => .ok []

mutual

/-- `TaskSpec::from_json` from src/task.rs. -/
def TaskSpec.fromJson : Json → Except TaskSpecParseError TaskSpec
  | .str s => .ok (.single s)
  | .obj map =>
      match depsOf (depsValueOf map) with
      | .error e => .error e
      | .ok dependencies =>
          if (commandOf map).isNone && dependencies.isEmpty then
            .error .missingCommandAndDeps
          else
            .ok (.detailed (commandOf map) (descriptionOf map) dependencies)
  | .arr items => (TaskSpec.fromJsonList items).map .sequence
  | _ => .error (.invalidType invalidTypeName)

/-- Elementwise parse of a JSON array (the `Value::Array` arm), failing
on the first element that fails. -/
def TaskSpec.fromJsonList : List Json → Except TaskSpecParseError (List TaskSpec)
  | [] => .ok []
  | x :: xs =>
      match TaskSpec.fromJson x with
      | .error e => .error e
      | .ok s =>
          match TaskSpec.fromJsonList xs with
          | .error e => .error e
          | .ok rest => .ok (s :: rest)

end

mutual

/-- `TaskSpec::to_json` from src/task.rs. -/
def TaskSpec.toJson : TaskSpec → Json
  | .single s => .str s
  | .detailed command description dependencies =>
      .obj ((match command with
              | some cmd => [("command", Json.str cmd)]
              | none => []) ++
            (match description with
              | some d => [("description", Json.str d)]
              | none => []) ++
            (if dependencies.isEmpty then []
             else [("dependencies", Json.arr (dependencies.map Json.str))]))
  | .sequence list => .arr (TaskSpec.toJsonList list)

/-- Elementwise serialization of a sequence. -/
def TaskSpec.toJsonList : List TaskSpec → List Json
  | [] => []
  | x :: xs => TaskSpec.toJson x :: TaskSpec.toJsonList xs

end

mutual

/-- The parse invariant of `TaskSpec`: every `Detailed` node reachable
from `from_json` has a command or a non-empty dependency list. -/
def TaskSpec.wfB : TaskSpec → Bool
  | .single _ => true
  | .detailed c _ deps => c.isSome || !deps.isEmpty
  | .sequence l => TaskSpec.wfListB l

/-- `wfB` on every element of a list. -/
def TaskSpec.wfListB : List TaskSpec → Bool
  | [] => true
  | x :: xs => TaskSpec.wfB x && TaskSpec.wfListB xs

end

/-- One-level flattening used by `merge_specs` in src/config.rs: a
`Sequence` contributes its elements, any other spec contributes itself. -/
def flattenSpec : TaskSpec → List TaskSpec
  | .sequence list => list
  | other => [other]

/-- `merge_specs` from src/config.rs. -/
def mergeSpecs (existing : Option TaskSpec) (incoming : TaskSpec)
    (replace : Bool) : TaskSpec :=
  if replace then incoming
  else
    match existing with
    | none => incoming
    | some current => .sequence (flattenSpec current ++ flattenSpec incoming)

/-- The result assembly at the end of the `Sequence` arm of
`remove_task_from_spec`: nothing survives, a single survivor unwrapped,
or a `Sequence` of the survivors. -/
def unwrapSurvivors : List TaskSpec → Option TaskSpec
  | [] => none
  | [x] => some x
  | xs => some (.sequence xs)

mutual

/-- `remove_task_from_spec` from src/config.rs. -/
def removeTaskFromSpec (current target : TaskSpec) : Option TaskSpec :=
  match current with
  | .single _ => if current = target then none else some current
  | .detailed _ _ _ => if current = target then none else some current
  | .sequence list => unwrapSurvivors (removeFromList list target)

/-- The `filter_map` over a sequence's elements in
`remove_task_from_spec`. -/
def removeFromList : List TaskSpec → TaskSpec → List TaskSpec
  | [], _ => []
  | x :: xs, target =>
      match removeTaskFromSpec x target with
      | none => removeFromList xs target
      | some y => y :: removeFromList xs target

end

/-- The single-line-comment inner loop of `strip_json_comments`
(src/config.rs): consume characters up to and including the first
newline, returning the remainder (with a proof that no characters were
invented, used for termination of the outer scanner). -/
def dropLine : (l : List Char) → { r : List Char // r.length ≤ l.length }
  | [] => ⟨[], Nat.le_refl 0⟩
  | c :: rest =>
      if c = '\n' then ⟨rest, by simp⟩
      else ⟨(dropLine rest).1, le_trans (dropLine rest).2 (by simp)⟩

/-- The block-comment inner loop of `strip_json_comments`: skip until the
closing star-slash (or the end of input), emitting the newlines seen on
the way.  Returns the emitted newlines and the remaining input. -/
def skipBlockAux : (l : List Char) → List Char × { r : List Char // r.length ≤ l.length }
  | [] => ([], ⟨[], Nat.le_refl 0⟩)
  | '*' :: '/' :: rest2 => ([], ⟨rest2, by simp only [List.length_cons]; omega⟩)
  | '\n' :: rest =>
      let p := skipBlockAux rest
      ('\n' :: p.1, ⟨p.2.1, le_trans p.2.2 (by simp only [List.length_cons]; omega)⟩)
  | _ :: rest =>
      let p := skipBlockAux rest
      (p.1, ⟨p.2.1, le_trans p.2.2 (by simp only [List.length_cons]; omega)⟩)

/-- The main loop of `strip_json_comments` from src/config.rs, over the
character list with the `in_string` and `escaped` flags. -/
def stripChars : List Char → Bool → Bool → List Char
  | [], _, _ => []
  | c :: rest, true, escaped =>
      if escaped then c :: stripChars rest true false
      else if c = '\\' then c :: stripChars rest true true
      else if c = '"' then c :: stripChars rest false false
      else c :: stripChars rest true false
  | '/' :: '/' :: rest2, false, _ =>
      '\n' :: stripChars (dropLine rest2).1 false false
  | '/' :: '*' :: rest2, false, _ =>
      (skipBlockAux rest2).1 ++ stripChars (skipBlockAux rest2).2.1 false false
  | c :: rest, false, _ =>
      if c = '"' then c :: stripChars rest true false
      else c :: stripChars rest false false
termination_by l _ _ => l.length
decreasing_by
  all_goals simp only [List.length_cons]
  all_goals try omega
  · exact Nat.lt_of_le_of_lt (dropLine rest2).2 (by omega)
  · exact Nat.lt_of_le_of_lt (skipBlockAux rest2).2.2 (by omega)

/-- `strip_json_comments` from src/config.rs. -/
def stripJsonComments (input : String) : String :=
  String.mk (stripChars input.data false false)

/-- Whether a character list contains a star immediately followed by a
slash (which would close a block comment early). -/
def hasStarSlash : List Char → Bool
  | [] => false
  | '*' :: '/' :: _ => true
  | _ :: rest => hasStarSlash rest

/-- Well-formedness of the body of a double-quoted string literal,
relative to the current `escaped` flag: the scanner never meets an
unescaped closing quote inside the body, and the body does not end in
the middle of an escape. -/
def okStrBody : List Char → Bool → Bool
  | [], e => !e
  | _ :: rest, true => okStrBody rest false
  | c :: rest, false =>
      if c = '\\' then okStrBody rest true
      else (c != '"') && okStrBody rest false

/-- A segment of scanner input: a plain character, a complete string
literal, a line comment, a block comment, or a lone slash. -/
inductive Seg where
  | ch (c : Char)
  | strLit (body : List Char)
  | lineComment (body : List Char)
  | blockComment (body : List Char)
  | slash

/-- The characters a segment contributes to the scanner input. -/
def segInput : Seg → List Char
  | .ch c => [c]
  | .strLit body => '"' :: body ++ ['"']
  | .lineComment body => '/' :: '/' :: body ++ ['\n']
  | .blockComment body => '/' :: '*' :: body ++ ['*', '/']
  | .slash => ['/']

/-- What the scanner emits for a segment: characters and string literals
verbatim, a line comment collapses to its newline, a block comment to the
newlines it contains. -/
def segOutput : Seg → List Char
  | .ch c => [c]
  | .strLit body => '"' :: body ++ ['"']
  | .lineComment _ => ['\n']
  | .blockComment body => body.filter (fun c => c = '\n')
  | .slash => ['/']

/-- Per-segment well-formedness. -/
def segWf : Seg → Bool
  | .ch c => c != '"' && c != '/'
  | .strLit body => okStrBody body false
  | .lineComment body => !body.contains '\n'
  | .blockComment body => !hasStarSlash body
  | .slash => true

/-- The first input character of a segment. -/
def segHead : Seg → Char
  | .ch c => c
  | .strLit _ => '"'
  | .lineComment _ => '/'
  | .blockComment _ => '/'
  | .slash => '/'

/-- A lone slash segment may not be followed by a segment whose first
character would turn it into a comment opener. -/
def chainOk : Seg → List Seg → Bool
  | .slash, s2 :: _ => !(segHead s2 == '/' || segHead s2 == '*')
  | _, _ => true

/-- Well-formedness of a segment list. -/
def segsWf : List Seg → Bool
  | [] => true
  | s :: rest => segWf s && chainOk s rest && segsWf rest

/-- The single-quote character (kept out of literals for hygiene). -/
def singleQuote : Char := Char.ofNat 39

/-- `arg.replace(CHAR_DQUOTE, BACKSLASH_DQUOTE)` in `exec_raw_command`:
every double quote becomes a backslash followed by a double quote. -/
def escapeDoubleQuotes (s : String) : String :=
  String.mk (s.data.foldr
    (fun c acc => if c = '"' then '\\' :: '"' :: acc else c :: acc) [])

/-- The quoted form used for an argument containing a space: single
quotes around the argument with its double quotes escaped. -/
def quoteRawArg (arg : String) : String :=
  String.mk (singleQuote :: (escapeDoubleQuotes arg).data ++ [singleQuote])

/-- The command-string composition of `exec_raw_command`
(src/runner.rs): append each extra argument, wrapping it in single
quotes (escaping embedded double quotes) when it contains a space
character, and unquoted otherwise. -/
def composeRawCommand (cmd : String) (extraArgs : List String) : String :=
  extraArgs.foldl
    (fun acc arg =>
      if arg.data.contains ' ' then acc ++ " " ++ quoteRawArg arg
      else acc ++ " " ++ arg)
    cmd

/-- `RunnerError` from src/runner.rs (the variants reachable from the
embedded core; exit statuses are modelled as natural numbers). -/
inductive RunnerError where
  | commandFailure (cmd : String) (status : Nat)
  | taskNotFound (name : String)
  | circularDependency (name : String)
  | invalidTaskSpec (e : TaskSpecParseError)
  | invalidConfigShape (source : String)
deriving DecidableEq

/-- `Map::contains_key` on an association list. -/
def hasKey (fields : List (String × Json)) (k : String) : Bool :=
  fields.any (fun p => p.1 == k)

/-- In-place replacement of the first binding of a key, preserving the
position of every other binding. -/
def setKey : List (String × Json) → String → Json → List (String × Json)
  | [], _, _ => []
  | (k2, v2) :: rest, k, v =>
      if k2 = k then (k2, v) :: rest else (k2, v2) :: setKey rest k v

/-- `sort_hooks` from src/config.rs: re-sort the hooks map by key
(a stable sort by string comparison). -/
def sortHooks (m : List (String × Json)) : List (String × Json) :=
  List.mergeSort m (fun a b => decide (a.1 ≤ b.1))

/-- The raw hooks map extracted by `with_hooks_map`: the value of the
top-level `hooks` field when it is an object, and the empty map when the
field is absent or has another shape. -/
def rawHooksOf (fields : List (String × Json)) : List (String × Json) :=
  match lookupAssoc fields "hooks" with
  | some (.obj m) => m
  | _ => []

/-- `with_hooks_map` from src/config.rs: require the document to be an
object, materialize a `hooks` object (appending an empty one if the key
is absent, replacing a non-object value), run the caller's edit on the
raw hooks map, and re-sort its keys. -/
def withHooksMap (value : Json) (src : String)
    (mutator : List (String × Json) → Except RunnerError (List (String × Json))) :
    Except RunnerError Json :=
  match value with
  | .obj fields =>
      let fields1 :=
        if hasKey fields "hooks" then fields
        else fields ++ [("hooks", Json.obj [])]
      match mutator (rawHooksOf fields1) with
      | .error e => .error e
      | .ok m2 => .ok (.obj (setKey fields1 "hooks" (.obj (sortHooks m2))))
  | _ => .error (.invalidConfigShape src)

/-- JSON string escaping used by the serializer model. -/
def jsonEscapeChar (c : Char) : List Char :=
  if c = '"' then ['\\', '"']
  else if c = '\\' then ['\\', '\\']
  else if c = '\n' then ['\\', 'n']
  else if c = '\t' then ['\\', 't']
  else [c]

/-- A JSON-quoted string. -/
def jsonQuote (s : String) : String :=
  String.mk ('"' :: (s.data.foldr (fun c acc => jsonEscapeChar c ++ acc) []) ++ ['"'])

/-- `n` spaces of indentation. -/
def nSpaces (n : Nat) : String := String.mk (List.replicate n ' ')

mutual

/-- Model of `serde_json::to_string_pretty`: two-space indentation,
one element per line. -/
def prettyJson : Json → Nat → String
  | .null, _ => "null"
  | .bool true, _ => "true"
  | .bool false, _ => "false"
  | .num n, _ => toString n
  | .str s, _ => jsonQuote s
  | .arr [], _ => "[]"
  | .arr (x :: xs), ind =>
      "[\n" ++ nSpaces (ind + 2) ++ prettyJson x (ind + 2) ++
        prettyArrItems xs (ind + 2) ++ "\n" ++ nSpaces ind ++ "]"
  | .obj [], _ => "\x7b\x7d"
  | .obj ((k, v) :: fs), ind =>
      "\x7b\n" ++ nSpaces (ind + 2) ++ jsonQuote k ++ ": " ++
        prettyJson v (ind + 2) ++ prettyObjItems fs (ind + 2) ++
        "\n" ++ nSpaces ind ++ "\x7d"

/-- Remaining array elements, each on its own line. -/
def prettyArrItems : List Json → Nat → String
  | [], _ => ""
  | x :: xs, ind => ",\n" ++ nSpaces ind ++ prettyJson x ind ++ prettyArrItems xs ind

/-- Remaining object fields, each on its own line. -/
def prettyObjItems : List (String × Json) → Nat → String
  | [], _ => ""
  | (k, v) :: fs, ind =>
      ",\n" ++ nSpaces ind ++ jsonQuote k ++ ": " ++ prettyJson v ind ++
        prettyObjItems fs ind

end

/-- `write_config_value` from src/config.rs: pretty-print the document
and append a trailing newline (the write to disk is modelled as the
produced string). -/
def writeConfigValue (value : Json) : String :=
  prettyJson value 0 ++ "\n"

/-- `mutate_hooks` from src/runner.rs, on an already-loaded document:
rewrite the hooks section with `with_hooks_map` and serialize with
`write_config_value`; on error nothing is written. -/
def mutateHooksValue (value : Json) (src : String)
    (mutator : List (String × Json) → Except RunnerError (List (String × Json))) :
    Except RunnerError String :=
  match withHooksMap value src mutator with
  | .error e => .error e
  | .ok v2 => .ok (writeConfigValue v2)

/-- A spawned subprocess: the program and its argument vector. -/
structure Invocation where
  program : String
  args : List String
deriving DecidableEq

/-- The execution environment: assigns an exit status to every
invocation (0 meaning success), abstracting `std::process::Command`. -/
abbrev Oracle : Type := Invocation → Nat

/-- `HookConfig` from src/config.rs (the name tables consulted by the
engine; the source path plays no role in resolution). -/
structure HookConfig where
  hooks : List (String × TaskSpec)
  nodeScripts : List (String × String)
  denoTasks : List (String × String)
  packageManager : Option String

/-- `spawn_command`: run the invocation through the oracle; a non-zero
status becomes `CommandFailure` carrying the display string. -/
def spawnResult (oracle : Oracle) (inv : Invocation) (display : String) :
    Except RunnerError Unit :=
  if oracle inv = 0 then .ok ()
  else .error (.commandFailure display (oracle inv))

/-- `exec_raw_command` from src/runner.rs: compose the command string
with the extra arguments appended and execute it via the shell
interpreter (`sh -c`).  Returns the result and the trace of spawned
invocations. -/
def execRawCommand (oracle : Oracle) (cmd : String) (extraArgs : List String) :
    Except RunnerError Unit × List Invocation :=
  let fullCmd := composeRawCommand cmd extraArgs
  (spawnResult oracle ⟨"sh", ["-c", fullCmd]⟩ fullCmd,
   [⟨"sh", ["-c", fullCmd]⟩])

/-- `exec_deno_task`: invoke the task-runner executable with the task
name and the extra arguments as discrete arguments. -/
def execDenoTask (oracle : Oracle) (name : String) (extraArgs : List String) :
    Except RunnerError Unit × List Invocation :=
  (spawnResult oracle ⟨"deno", ["task", name] ++ extraArgs⟩
     ("deno task " ++ name),
   [⟨"deno", ["task", name] ++ extraArgs⟩])

/-- `extract_package_manager_command`: split the `packageManager` value
at the at-sign, lowercase and trim the prefix, and fall back to `npm`
when the result is not a recognized manager. -/
def extractPackageManagerCommand (pm : String) : String :=
  let parts := pm.splitOn "@"
  let pmLower := (parts.headD "").toLower
  let pmTrim := pmLower.trim
  if pmTrim = "npm" || pmTrim = "yarn" || pmTrim = "pnpm" || pmTrim = "bun"
  then pmTrim else "npm"

/-- `exec_node_script`: invoke the resolved package manager in run-script
mode, inserting a separator before any extra arguments. -/
def execNodeScript (cfg : HookConfig) (oracle : Oracle) (name : String)
    (extraArgs : List String) :
    Except RunnerError Unit × List Invocation :=
  let manager := cfg.packageManager.getD "npm"
  let exeName := extractPackageManagerCommand manager
  let inv : Invocation :=
    ⟨exeName, ["run", name] ++ (if extraArgs.isEmpty then [] else "--" :: extraArgs)⟩
  (spawnResult oracle inv (exeName ++ " run " ++ name), [inv])

/-- A run outcome: the result, the visiting set after the call, and the
ordered trace of spawned invocations. -/
abbrev RunResult : Type := Except RunnerError Unit × List String × List Invocation

mutual

/-- `TaskRunner::run_spec` from src/runner.rs, with explicit fuel
(`none` = out of fuel) and explicit visiting-set state. -/
def runSpec (cfg : HookConfig) (oracle : Oracle) :
    Nat → TaskSpec → String → List String → List String → Option RunResult
  | 0, _, _, _, _ => none
  | fuel + 1, .single name, _, extraArgs, visiting =>
      runSingle cfg oracle fuel name extraArgs visiting
  | fuel + 1, .detailed command _ dependencies, _, extraArgs, visiting =>
      match runDeps cfg oracle fuel dependencies visiting with
      | none => none
      | some (.error e, v2, tr) => some (.error e, v2, tr)
      | some (.ok _, v2, tr) =>
          match command with
          | some cmd =>
              let p := execRawCommand oracle cmd extraArgs
              some (p.1, v2, tr ++ p.2)
          | none => some (.ok (), v2, tr)
  | fuel + 1, .sequence list, hook, extraArgs, visiting =>
      runSeqItems cfg oracle fuel list hook extraArgs visiting
termination_by structural fuel _ _ _ _ => fuel

/-- The `Sequence` loop of `run_spec`: run the items strictly in order,
aborting on the first failure. -/
def runSeqItems (cfg : HookConfig) (oracle : Oracle) :
    Nat → List TaskSpec → String → List String → List String → Option RunResult
  | 0, _, _, _, _ => none
  | _ + 1, [], _, _, visiting => some (.ok (), visiting, [])
  | fuel + 1, item :: rest, hook, extraArgs, visiting =>
      match runSpec cfg oracle fuel item hook extraArgs visiting with
      | none => none
      | some (.error e, v2, tr) => some (.error e, v2, tr)
      | some (.ok _, v2, tr) =>
          match runSeqItems cfg oracle fuel rest hook extraArgs v2 with
          | none => none
          | some (r, v3, tr2) => some (r, v3, tr ++ tr2)
termination_by structural fuel _ _ _ _ => fuel

/-- The dependency loop of `run_spec`'s `Detailed` arm: run each
dependency in listed order via `run_named_task` (no extra arguments),
aborting on the first failure. -/
def runDeps (cfg : HookConfig) (oracle : Oracle) :
    Nat → List String → List String → Option RunResult
  | 0, _, _ => none
  | _ + 1, [], visiting => some (.ok (), visiting, [])
  | fuel + 1, dep :: rest, visiting =>
      match runSingle cfg oracle fuel dep [] visiting with
      | none => none
      | some (.error e, v2, tr) => some (.error e, v2, tr)
      | some (.ok _, v2, tr) =>
          match runDeps cfg oracle fuel rest v2 with
          | none => none
          | some (r, v3, tr2) => some (r, v3, tr ++ tr2)
termination_by structural fuel _ _ => fuel

/-- The `let result = ...` resolution chain inside
`TaskRunner::run_single`: resolve a (freshly marked) name in fixed
priority order — deno task, node script, another hook's spec, and
finally the name itself as a literal shell command. -/
def runResolve (cfg : HookConfig) (oracle : Oracle) :
    Nat → String → List String → List String → Option RunResult
  | 0, _, _, _ => none
  | fuel + 1, name, extraArgs, v1 =>
      match lookupAssoc cfg.denoTasks name with
      | some _ =>
          let p := execDenoTask oracle name extraArgs
          some (p.1, v1, p.2)
      | none =>
          match lookupAssoc cfg.nodeScripts name with
          | some _ =>
              let p := execNodeScript cfg oracle name extraArgs
              some (p.1, v1, p.2)
          | none =>
              match lookupAssoc cfg.hooks name with
              | some spec => runSpec cfg oracle fuel spec name extraArgs v1
              | none =>
                  let p := execRawCommand oracle name extraArgs
                  some (p.1, v1, p.2)
termination_by structural fuel _ _ _ => fuel

/-- `TaskRunner::run_single` from src/runner.rs: the cycle-guarded name
resolution.  A name already being visited fails with
`CircularDependency`; otherwise the name is marked visiting, resolved
via `runResolve`, and unmarked again whatever the outcome. -/
def runSingle (cfg : HookConfig) (oracle : Oracle) :
    Nat → String → List String → List String → Option RunResult
  | 0, _, _, _ => none
  | fuel + 1, name, extraArgs, visiting =>
      if visiting.contains name then
        some (.error (.circularDependency name), visiting, [])
      else
        match runResolve cfg oracle fuel name extraArgs (name :: visiting) with
        | none => none
        | some (r, v2, tr) => some (r, v2.erase name, tr)
termination_by structural fuel _ _ _ => fuel

end

/-- `TaskRunner::run_named_task`: run a single task by name with no
forwarded arguments. -/
def runNamedTask (cfg : HookConfig) (oracle : Oracle) (fuel : Nat)
    (name : String) (visiting : List String) : Option RunResult :=
  runSingle cfg oracle fuel name [] visiting

/-- The hook names of a configuration that are not currently being
visited; the termination measure of the resolution engine. -/
def keysOutside (cfg : HookConfig) (visiting : List String) : Nat :=
  ((cfg.hooks.map Prod.fst).filter (fun k => !visiting.contains k)).length

/-- Decidable equality for run results. -/
instance : DecidableEq (Except RunnerError Unit)
  | .ok a, .ok b =>
      if h : a = b then isTrue (by rw [h]) else isFalse (fun hh => by cases hh; exact h rfl)
  | .ok _, .error _ => isFalse (fun h => by cases h)
  | .error _, .ok _ => isFalse (fun h => by cases h)
  | .error a, .error b =>
      if h : a = b then isTrue (by rw [h]) else isFalse (fun hh => by cases hh; exact h rfl)

/-! ## Theorems -/

/-- A list whose elements are all mapped to themselves by an
`Option`-valued function is left unchanged by `filterMap`. -/
theorem filterMap_of_self {α : Type} (f : α → Option α) :
    ∀ (l : List α), (∀ t ∈ l, f t = some t) → l.filterMap f = l
  | [], _ => rfl
  | x :: xs, h => by
      rw [List.filterMap_cons, h x (List.mem_cons_self x xs),
        filterMap_of_self f xs (fun t ht => h t (List.mem_cons_of_mem x ht))]

/-- The sequence-element loop of `remove_task_from_spec` is a
`filterMap` of the recursive removal. -/
theorem removeFromList_eq_filterMap (target : TaskSpec) :
    ∀ (l : List TaskSpec),
      removeFromList l target = l.filterMap (fun t => removeTaskFromSpec t target)
  | [] => rfl
  | x :: xs => by
      rw [removeFromList, List.filterMap_cons, removeFromList_eq_filterMap target xs]
      cases removeTaskFromSpec x target <;> rfl

/-- Claim C3, counterexample: merging two empty sequences produces a
sequence of length 0, so the merged length is not always at least 2. -/
theorem C3_counterexample :
    mergeSpecs (some (TaskSpec.sequence [])) (TaskSpec.sequence []) false
      = TaskSpec.sequence [] ∧
    flattenSpec (TaskSpec.sequence []) ++ flattenSpec (TaskSpec.sequence []) = [] ∧
    ¬ 2 ≤ (flattenSpec (TaskSpec.sequence [])
            ++ flattenSpec (TaskSpec.sequence [])).length :=
  ⟨rfl, rfl, by decide⟩

/-- Claim C3 (amended): merging with `replace = false` into an existing
entry yields the `Sequence` of the one-level flattenings concatenated,
whose length is the sum of the flattened lengths; it is at least 2
whenever both flattenings are non-empty (an empty `Sequence` flattens to
no elements, so merging empty sequences can yield fewer). -/
theorem C3_merge_flatten (ex inc : TaskSpec) :
    mergeSpecs (some ex) inc false
      = .sequence (flattenSpec ex ++ flattenSpec inc) ∧
    (flattenSpec ex ++ flattenSpec inc).length
      = (flattenSpec ex).length + (flattenSpec inc).length ∧
    (flattenSpec ex ≠ [] → flattenSpec inc ≠ [] →
      2 ≤ (flattenSpec ex ++ flattenSpec inc).length) := by
  refine ⟨rfl, List.length_append _ _, fun h1 h2 => ?_⟩
  have l1 : 0 < (flattenSpec ex).length := List.length_pos.mpr h1
  have l2 : 0 < (flattenSpec inc).length := List.length_pos.mpr h2
  rw [List.length_append]
  omega

/-- Witness for the amended C3 at the spec's own example
`merge(Single a, Single b, replace=false)`. -/
theorem C3_merge_flatten_witness :
    mergeSpecs (some (TaskSpec.single "a")) (TaskSpec.single "b") false
      = .sequence [TaskSpec.single "a", TaskSpec.single "b"] ∧
    2 ≤ (flattenSpec (TaskSpec.single "a")
          ++ flattenSpec (TaskSpec.single "b")).length :=
  ⟨(C3_merge_flatten (TaskSpec.single "a") (TaskSpec.single "b")).1,
   (C3_merge_flatten (TaskSpec.single "a") (TaskSpec.single "b")).2.2
     (by decide) (by decide)⟩

/-- Claim C4, counterexample: when the target is itself a `Sequence`, a
sibling structurally equal to the target is not removed outright but
recursively filtered (and here unwrapped), so the result is not the
remaining siblings. -/
theorem C4_counterexample :
    removeTaskFromSpec
        (.sequence [.sequence [.single "a"], .single "b"])
        (.sequence [.single "a"])
      = some (.sequence [.single "a", .single "b"]) ∧
    removeTaskFromSpec
        (.sequence [.sequence [.single "a"], .single "b"])
        (.sequence [.single "a"])
      ≠ some (.single "b") :=
  ⟨rfl, by decide⟩

/-- Claim C4 (amended): on a non-sequence spec the result is `none`
exactly when it equals the target (and the unchanged spec otherwise); on
a `Sequence` the elements are recursively filtered and the survivors
unwrapped; and removing a sibling equal to a **non-sequence** target
from a sequence whose other siblings all survive unchanged yields
exactly the remaining siblings. -/
theorem C4_remove_characterization :
    (∀ (s target : TaskSpec), (∀ l, s ≠ .sequence l) →
       ((removeTaskFromSpec s target = none ↔ s = target) ∧
        (s ≠ target → removeTaskFromSpec s target = some s))) ∧
    (∀ (list : List TaskSpec) (target : TaskSpec),
       removeTaskFromSpec (.sequence list) target
         = unwrapSurvivors
             (list.filterMap (fun t => removeTaskFromSpec t target))) ∧
    (∀ (l1 l2 : List TaskSpec) (target : TaskSpec),
       (∀ l, target ≠ .sequence l) →
       (∀ t, t ∈ l1 ++ l2 → removeTaskFromSpec t target = some t) →
       removeTaskFromSpec (.sequence (l1 ++ target :: l2)) target
         = unwrapSurvivors (l1 ++ l2)) := by
  have hself : ∀ (target : TaskSpec), (∀ l, target ≠ .sequence l) →
      removeTaskFromSpec target target = none := by
    intro target ht
    cases target with
    | single c => simp [removeTaskFromSpec]
    | detailed c d deps => simp [removeTaskFromSpec]
    | sequence l => exact absurd rfl (ht l)
  refine ⟨?_, ?_, ?_⟩
  · intro s target hs
    cases s with
    | single c =>
        constructor
        · rw [removeTaskFromSpec]
          constructor
          · intro h
            by_cases he : TaskSpec.single c = target
            · exact he
            · rw [if_neg he] at h; cases h
          · intro h; rw [if_pos h]
        · intro hne; rw [removeTaskFromSpec, if_neg hne]
    | detailed c d deps =>
        constructor
        · rw [removeTaskFromSpec]
          constructor
          · intro h
            by_cases he : TaskSpec.detailed c d deps = target
            · exact he
            · rw [if_neg he] at h; cases h
          · intro h; rw [if_pos h]
        · intro hne; rw [removeTaskFromSpec, if_neg hne]
    | sequence l => exact absurd rfl (hs l)
  · intro list target
    rw [removeTaskFromSpec, removeFromList_eq_filterMap]
  · intro l1 l2 target ht hsur
    rw [removeTaskFromSpec, removeFromList_eq_filterMap,
      List.filterMap_append, List.filterMap_cons, hself target ht,
      filterMap_of_self _ l1
        (fun t htm => hsur t (List.mem_append_left _ htm)),
      filterMap_of_self _ l2
        (fun t htm => hsur t (List.mem_append_right _ htm))]

/-- Witness for the amended C4: removing the single matching sibling of
a two-element sequence leaves the other sibling, unwrapped. -/
theorem C4_remove_witness :
    removeTaskFromSpec
        (.sequence [.single "a", .single "b"]) (.single "a")
      = some (.single "b") := by
  have h := C4_remove_characterization.2.2 [] [TaskSpec.single "b"]
    (TaskSpec.single "a") (fun l hl => by cases hl)
    (fun t htm => by
      simp only [List.nil_append, List.mem_singleton] at htm
      subst htm
      decide)
  simpa using h

/-- Claim C8, counterexample: `exec_raw_command` quotes only arguments
containing a space character; an argument containing other whitespace
(here a tab) is appended unquoted, contradicting "every argument
containing whitespace is wrapped in single quotes". -/
theorem C8_counterexample :
    composeRawCommand "echo" ["a\tb"] = "echo a\tb" ∧
    ("a\tb").data.any Char.isWhitespace = true ∧
    composeRawCommand "echo" ["a\tb"] ≠ "echo " ++ quoteRawArg "a\tb" :=
  ⟨by decide, by decide, by decide⟩

/-- Claim C8 (amended): the composed command string appends each extra
argument in order; an argument containing a **space character** is
wrapped in single quotes with embedded double quotes escaped, any other
argument is appended unquoted; and the composed string is executed
through the shell interpreter (`sh -c`). -/
theorem C8_compose_raw_command (cmd : String) (args : List String)
    (a : String) (oracle : Oracle) :
    composeRawCommand cmd (args ++ [a])
      = composeRawCommand cmd args ++ " " ++
          (if a.data.contains ' ' then quoteRawArg a else a) ∧
    composeRawCommand cmd [] = cmd ∧
    quoteRawArg a
      = String.mk (singleQuote :: (escapeDoubleQuotes a).data ++ [singleQuote]) ∧
    (execRawCommand oracle cmd args).2
      = [⟨"sh", ["-c", composeRawCommand cmd args]⟩] := by
  refine ⟨?_, rfl, rfl, rfl⟩
  rw [composeRawCommand, composeRawCommand, List.foldl_append,
    List.foldl_cons, List.foldl_nil]
  split <;> rfl

/-- The dependency-array loop maps an all-strings array back to its
strings. -/
theorem collectDeps_map_str :
    ∀ (deps : List String), collectDeps (deps.map Json.str) = .ok deps
  | [] => rfl
  | d :: rest => by
      rw [List.map_cons, collectDeps, collectDeps_map_str rest]
      rfl

/-- A failing dependency-array loop fails with `InvalidDependencyType`
and exhibits a non-string element. -/
theorem collectDeps_error :
    ∀ (l : List Json) (e : TaskSpecParseError), collectDeps l = .error e →
      e = .invalidDependencyType ∧ ∃ x ∈ l, ∀ s, x ≠ Json.str s
  | [], e, h => by cases h
  | .str n :: rest, e, h => by
      rw [collectDeps] at h
      cases hr : collectDeps rest with
      | error e2 =>
          rw [hr] at h
          cases h
          obtain ⟨he, x, hx, hxs⟩ := collectDeps_error rest _ hr
          exact ⟨he, x, List.mem_cons_of_mem _ hx, hxs⟩
      | ok l2 => rw [hr] at h; cases h
  | .null :: rest, e, h => by
      rw [show collectDeps (Json.null :: rest)
            = .error .invalidDependencyType from rfl] at h
      cases h
      exact ⟨rfl, .null, List.mem_cons_self _ _, fun _ hs => Json.noConfusion hs⟩
  | .bool b :: rest, e, h => by
      rw [show collectDeps (Json.bool b :: rest)
            = .error .invalidDependencyType from rfl] at h
      cases h
      exact ⟨rfl, .bool b, List.mem_cons_self _ _, fun _ hs => Json.noConfusion hs⟩
  | .num n :: rest, e, h => by
      rw [show collectDeps (Json.num n :: rest)
            = .error .invalidDependencyType from rfl] at h
      cases h
      exact ⟨rfl, .num n, List.mem_cons_self _ _, fun _ hs => Json.noConfusion hs⟩
  | .arr l :: rest, e, h => by
      rw [show collectDeps (Json.arr l :: rest)
            = .error .invalidDependencyType from rfl] at h
      cases h
      exact ⟨rfl, .arr l, List.mem_cons_self _ _, fun _ hs => Json.noConfusion hs⟩
  | .obj m :: rest, e, h => by
      rw [show collectDeps (Json.obj m :: rest)
            = .error .invalidDependencyType from rfl] at h
      cases h
      exact ⟨rfl, .obj m, List.mem_cons_self _ _, fun _ hs => Json.noConfusion hs⟩

/-- `from_json` on an object whose dependency extraction succeeded. -/
theorem fromJson_obj_of_deps (map : List (String × Json)) (deps : List String)
    (hd : depsOf (depsValueOf map) = .ok deps) :
    TaskSpec.fromJson (.obj map)
      = if (commandOf map).isNone && deps.isEmpty then
          .error .missingCommandAndDeps
        else .ok (.detailed (commandOf map) (descriptionOf map) deps) := by
  rw [TaskSpec.fromJson, hd]

/-- Claim C10: a `dependencies`/`depends` value that is neither a string
nor an array is silently treated as absent — the parse fails with
`MissingCommandAndDeps` when no command is present and succeeds with an
empty dependency list when one is; `InvalidDependencyType` arises only
from a non-string element inside a dependency array. -/
theorem C10_nonstring_nonarray_deps :
    (∀ (map : List (String × Json)) (j : Json),
       depsValueOf map = some j →
       (∀ s, j ≠ .str s) → (∀ l, j ≠ .arr l) →
       depsOf (depsValueOf map) = .ok [] ∧
       (commandOf map = none →
         TaskSpec.fromJson (.obj map) = .error .missingCommandAndDeps) ∧
       (∀ c, commandOf map = some c →
         TaskSpec.fromJson (.obj map)
           = .ok (.detailed (some c) (descriptionOf map) []))) ∧
    (∀ (map : List (String × Json)),
       TaskSpec.fromJson (.obj map) = .error .invalidDependencyType →
       ∃ l, depsValueOf map = some (.arr l) ∧ ∃ x ∈ l, ∀ s, x ≠ Json.str s) := by
  constructor
  · intro map j hdep hs ha
    have hok : depsOf (depsValueOf map) = .ok [] := by
      rw [hdep]
      cases j with
      | str s => exact absurd rfl (hs s)
      | arr l => exact absurd rfl (ha l)
      | null => rfl
      | bool b => rfl
      | num n => rfl
      | obj m => rfl
    refine ⟨hok, ?_, ?_⟩
    · intro hc
      rw [fromJson_obj_of_deps map [] hok, hc]
      rfl
    · intro c hc
      rw [fromJson_obj_of_deps map [] hok, hc]
      rfl
  · intro map h
    cases hd : depsOf (depsValueOf map) with
    | error e =>
        simp only [TaskSpec.fromJson, hd] at h
        cases h
        cases hv : depsValueOf map with
        | none => rw [hv] at hd; exact Except.noConfusion hd
        | some j =>
            cases j with
            | arr l =>
                rw [hv] at hd
                rw [show depsOf (some (Json.arr l)) = collectDeps l from rfl]
                  at hd
                obtain ⟨_, x, hx, hxs⟩ := collectDeps_error l _ hd
                exact ⟨l, rfl, x, hx, hxs⟩
            | str s => rw [hv] at hd; exact Except.noConfusion hd
            | null => rw [hv] at hd; exact Except.noConfusion hd
            | bool b => rw [hv] at hd; exact Except.noConfusion hd
            | num n => rw [hv] at hd; exact Except.noConfusion hd
            | obj m => rw [hv] at hd; exact Except.noConfusion hd
    | ok deps =>
        rw [fromJson_obj_of_deps map deps hd] at h
        by_cases hc : ((commandOf map).isNone && deps.isEmpty) = true
        · rw [if_pos hc] at h; cases h
        · rw [if_neg hc] at h; cases h

/-- Witness for C10: a numeric `dependencies` value is ignored, and the
object parses through its command alone. -/
theorem C10_witness :
    TaskSpec.fromJson
        (.obj [("command", Json.str "c"), ("dependencies", Json.num 3)])
      = .ok (.detailed (some "c") none []) :=
  (C10_nonstring_nonarray_deps.1
      [("command", Json.str "c"), ("dependencies", Json.num 3)]
      (Json.num 3) rfl (fun s h => by cases h) (fun l h => by cases h)).2.2
    "c" rfl

mutual

/-- Every spec produced by `from_json` satisfies the parse invariant. -/
theorem fromJson_wf : ∀ (v : Json) (t : TaskSpec),
    TaskSpec.fromJson v = .ok t → TaskSpec.wfB t = true
  | .str s, t, h => by cases h; rfl
  | .obj map, t, h => by
      cases hd : depsOf (depsValueOf map) with
      | error e =>
          rw [TaskSpec.fromJson, hd] at h
          cases h
      | ok deps =>
          rw [fromJson_obj_of_deps map deps hd] at h
          by_cases hc : ((commandOf map).isNone && deps.isEmpty) = true
          · rw [if_pos hc] at h; cases h
          · rw [if_neg hc] at h
            cases h
            rw [TaskSpec.wfB]
            cases hcm : commandOf map with
            | some c => rfl
            | none =>
                rw [hcm] at hc
                simp only [Option.isNone_none, Bool.true_and] at hc
                simp [hc]
  | .arr items, t, h => by
      rw [TaskSpec.fromJson] at h
      cases hl : TaskSpec.fromJsonList items with
      | error e => rw [hl] at h; cases h
      | ok ts =>
          rw [hl] at h
          cases h
          rw [TaskSpec.wfB]
          exact fromJsonList_wf items ts hl
  | .null, t, h => by cases h
  | .bool b, t, h => by cases h
  | .num n, t, h => by cases h

/-- Every spec list produced by the array arm of `from_json` satisfies
the parse invariant elementwise. -/
theorem fromJsonList_wf : ∀ (l : List Json) (ts : List TaskSpec),
    TaskSpec.fromJsonList l = .ok ts → TaskSpec.wfListB ts = true
  | [], ts, h => by cases h; rfl
  | x :: xs, ts, h => by
      rw [TaskSpec.fromJsonList] at h
      cases hx : TaskSpec.fromJson x with
      | error e => rw [hx] at h; cases h
      | ok s =>
          rw [hx] at h
          cases hxs : TaskSpec.fromJsonList xs with
          | error e => rw [hxs] at h; cases h
          | ok rest =>
              rw [hxs] at h
              cases h
              rw [TaskSpec.wfListB, fromJson_wf x s hx,
                fromJsonList_wf xs rest hxs]
              rfl

end

mutual

/-- Serialization is a right inverse of parsing on well-formed specs. -/
theorem toJson_roundtrip : ∀ (t : TaskSpec), TaskSpec.wfB t = true →
    TaskSpec.fromJson (TaskSpec.toJson t) = .ok t
  | .single s, _ => rfl
  | .detailed command description deps, h => by
      cases command with
      | some cmd =>
          cases deps with
          | nil => cases description <;> rfl
          | cons d0 drest =>
              cases description with
              | none =>
                  rw [TaskSpec.toJson]
                  have hd : depsOf (depsValueOf
                      [("command", Json.str cmd),
                       ("dependencies", Json.arr ((d0 :: drest).map Json.str))])
                      = .ok (d0 :: drest) := by
                    rw [show depsValueOf
                        [("command", Json.str cmd),
                         ("dependencies", Json.arr ((d0 :: drest).map Json.str))]
                        = some (Json.arr ((d0 :: drest).map Json.str)) from rfl]
                    rw [show depsOf (some (Json.arr ((d0 :: drest).map Json.str)))
                        = collectDeps ((d0 :: drest).map Json.str) from rfl]
                    exact collectDeps_map_str (d0 :: drest)
                  rw [show ((match some cmd with
                        | some c => [("command", Json.str c)]
                        | none => []) ++
                       (match (none : Option String) with
                        | some d => [("description", Json.str d)]
                        | none => []) ++
                       (if (d0 :: drest).isEmpty then []
                        else [("dependencies",
                          Json.arr ((d0 :: drest).map Json.str))]))
                      = [("command", Json.str cmd),
                         ("dependencies",
                          Json.arr ((d0 :: drest).map Json.str))] from rfl]
                  rw [fromJson_obj_of_deps _ _ hd]
                  rfl
              | some d =>
                  rw [TaskSpec.toJson]
                  have hd : depsOf (depsValueOf
                      [("command", Json.str cmd), ("description", Json.str d),
                       ("dependencies", Json.arr ((d0 :: drest).map Json.str))])
                      = .ok (d0 :: drest) := by
                    rw [show depsValueOf
                        [("command", Json.str cmd), ("description", Json.str d),
                         ("dependencies", Json.arr ((d0 :: drest).map Json.str))]
                        = some (Json.arr ((d0 :: drest).map Json.str)) from rfl]
                    rw [show depsOf (some (Json.arr ((d0 :: drest).map Json.str)))
                        = collectDeps ((d0 :: drest).map Json.str) from rfl]
                    exact collectDeps_map_str (d0 :: drest)
                  rw [show ((match some cmd with
                        | some c => [("command", Json.str c)]
                        | none => []) ++
                       (match some d with
                        | some d2 => [("description", Json.str d2)]
                        | none => []) ++
                       (if (d0 :: drest).isEmpty then []
                        else [("dependencies",
                          Json.arr ((d0 :: drest).map Json.str))]))
                      = [("command", Json.str cmd), ("description", Json.str d),
                         ("dependencies",
                          Json.arr ((d0 :: drest).map Json.str))] from rfl]
                  rw [fromJson_obj_of_deps _ _ hd]
                  rfl
      | none =>
          cases deps with
          | nil => rw [TaskSpec.wfB] at h; cases h
          | cons d0 drest =>
              cases description with
              | none =>
                  rw [TaskSpec.toJson]
                  have hd : depsOf (depsValueOf
                      [("dependencies", Json.arr ((d0 :: drest).map Json.str))])
                      = .ok (d0 :: drest) := by
                    rw [show depsValueOf
                        [("dependencies", Json.arr ((d0 :: drest).map Json.str))]
                        = some (Json.arr ((d0 :: drest).map Json.str)) from rfl]
                    rw [show depsOf (some (Json.arr ((d0 :: drest).map Json.str)))
                        = collectDeps ((d0 :: drest).map Json.str) from rfl]
                    exact collectDeps_map_str (d0 :: drest)
                  rw [show ((match (none : Option String) with
                        | some c => [("command", Json.str c)]
                        | none => []) ++
                       (match (none : Option String) with
                        | some d => [("description", Json.str d)]
                        | none => []) ++
                       (if (d0 :: drest).isEmpty then []
                        else [("dependencies",
                          Json.arr ((d0 :: drest).map Json.str))]))
                      = [("dependencies",
                          Json.arr ((d0 :: drest).map Json.str))] from rfl]
                  rw [fromJson_obj_of_deps _ _ hd]
                  rfl
              | some d =>
                  rw [TaskSpec.toJson]
                  have hd : depsOf (depsValueOf
                      [("description", Json.str d),
                       ("dependencies", Json.arr ((d0 :: drest).map Json.str))])
                      = .ok (d0 :: drest) := by
                    rw [show depsValueOf
                        [("description", Json.str d),
                         ("dependencies", Json.arr ((d0 :: drest).map Json.str))]
                        = some (Json.arr ((d0 :: drest).map Json.str)) from rfl]
                    rw [show depsOf (some (Json.arr ((d0 :: drest).map Json.str)))
                        = collectDeps ((d0 :: drest).map Json.str) from rfl]
                    exact collectDeps_map_str (d0 :: drest)
                  rw [show ((match (none : Option String) with
                        | some c => [("command", Json.str c)]
                        | none => []) ++
                       (match some d with
                        | some d2 => [("description", Json.str d2)]
                        | none => []) ++
                       (if (d0 :: drest).isEmpty then []
                        else [("dependencies",
                          Json.arr ((d0 :: drest).map Json.str))]))
                      = [("description", Json.str d),
                         ("dependencies",
                          Json.arr ((d0 :: drest).map Json.str))] from rfl]
                  rw [fromJson_obj_of_deps _ _ hd]
                  rfl
  | .sequence list, h => by
      rw [TaskSpec.toJson, TaskSpec.fromJson,
        toJsonList_roundtrip list (by rw [TaskSpec.wfB] at h; exact h)]
      rfl

/-- Elementwise right-inverse property for sequences. -/
theorem toJsonList_roundtrip : ∀ (l : List TaskSpec),
    TaskSpec.wfListB l = true →
    TaskSpec.fromJsonList (TaskSpec.toJsonList l) = .ok l
  | [], _ => rfl
  | x :: xs, h => by
      rw [TaskSpec.wfListB, Bool.and_eq_true] at h
      rw [TaskSpec.toJsonList, TaskSpec.fromJsonList,
        toJson_roundtrip x h.1, toJsonList_roundtrip xs h.2]

end

/-- Claim C5: whenever `from_json` succeeds, re-parsing the `to_json`
serialization of the result succeeds and yields a structurally equal
spec. -/
theorem C5_parse_serialize_roundtrip (v : Json) (t : TaskSpec)
    (h : TaskSpec.fromJson v = .ok t) :
    TaskSpec.fromJson (TaskSpec.toJson t) = .ok t :=
  toJson_roundtrip t (fromJson_wf v t h)

/-- Witness for C5 on a dependency-as-single-string input (the one lossy
case named by the spec: `depends: "x"` re-serializes as a one-element
array, and the round trip is exact). -/
theorem C5_parse_serialize_roundtrip_witness :
    TaskSpec.fromJson
        (TaskSpec.toJson (.detailed (some "c") none ["x"]))
      = .ok (.detailed (some "c") none ["x"]) :=
  C5_parse_serialize_roundtrip
    (Json.obj [("cmd", Json.str "c"), ("depends", Json.str "x")])
    (.detailed (some "c") none ["x"]) rfl

/-- The line-comment skip consumes exactly up to the first newline. -/
theorem dropLine_across : ∀ (body rest : List Char),
    body.contains '\n' = false →
    (dropLine (body ++ '\n' :: rest)).1 = rest
  | [], rest, _ => by simp [dropLine]
  | c :: body, rest, h => by
      rw [List.contains_cons, Bool.or_eq_false_iff] at h
      have hc : c ≠ '\n' := by
        intro he
        subst he
        simp at h
      rw [List.cons_append]
      simp only [dropLine, if_neg hc]
      exact dropLine_across body rest h.2

/-- The block-comment skip consumes exactly up to the closing star-slash
(when the body contains none), emitting the body's newlines. -/
theorem skipBlock_across : ∀ (body rest : List Char),
    hasStarSlash body = false →
    (skipBlockAux (body ++ '*' :: '/' :: rest)).1
        = body.filter (fun c => c = '\n') ∧
    (skipBlockAux (body ++ '*' :: '/' :: rest)).2.1 = rest
  | [], rest, _ => by
      constructor <;> simp [skipBlockAux]
  | c :: body, rest, h => by
      rw [List.cons_append]
      by_cases hstar : c = '*'
      · subst hstar
        cases body with
        | nil =>
            have h1 : (skipBlockAux ('*' :: '*' :: '/' :: rest)).1
                = (skipBlockAux ('*' :: '/' :: rest)).1 ∧
                (skipBlockAux ('*' :: '*' :: '/' :: rest)).2.1
                = (skipBlockAux ('*' :: '/' :: rest)).2.1 := by
              constructor <;> simp [skipBlockAux]
            rw [List.nil_append, h1.1, h1.2]
            constructor <;> simp [skipBlockAux]
        | cons c2 body2 =>
            have hc2 : c2 ≠ '/' := by
              intro he
              subst he
              simp [hasStarSlash] at h
            have htail : hasStarSlash (c2 :: body2) = false := by
              simpa [hasStarSlash, hc2] using h
            have h1 : (skipBlockAux
                  ('*' :: c2 :: (body2 ++ '*' :: '/' :: rest))).1
                = (skipBlockAux (c2 :: (body2 ++ '*' :: '/' :: rest))).1 ∧
                (skipBlockAux
                  ('*' :: c2 :: (body2 ++ '*' :: '/' :: rest))).2.1
                = (skipBlockAux (c2 :: (body2 ++ '*' :: '/' :: rest))).2.1 := by
              constructor <;> simp [skipBlockAux, hc2]
            obtain ⟨ih1, ih2⟩ := skipBlock_across (c2 :: body2) rest htail
            rw [List.cons_append] at ih1 ih2
            rw [List.cons_append, h1.1, h1.2, ih1, ih2]
            constructor
            · simp
            · rfl
      · by_cases hnl : c = '\n'
        · subst hnl
          have htail : hasStarSlash body = false := by
            simpa [hasStarSlash] using h
          obtain ⟨ih1, ih2⟩ := skipBlock_across body rest htail
          have h1 : (skipBlockAux ('\n' :: (body ++ '*' :: '/' :: rest))).1
              = '\n' :: (skipBlockAux (body ++ '*' :: '/' :: rest)).1 ∧
              (skipBlockAux ('\n' :: (body ++ '*' :: '/' :: rest))).2.1
              = (skipBlockAux (body ++ '*' :: '/' :: rest)).2.1 := by
            constructor <;> simp [skipBlockAux]
          rw [h1.1, h1.2, ih1, ih2]
          constructor
          · simp
          · rfl
        · have htail : hasStarSlash body = false := by
            simpa [hasStarSlash, hstar] using h
          obtain ⟨ih1, ih2⟩ := skipBlock_across body rest htail
          have h1 : (skipBlockAux (c :: (body ++ '*' :: '/' :: rest))).1
              = (skipBlockAux (body ++ '*' :: '/' :: rest)).1 ∧
              (skipBlockAux (c :: (body ++ '*' :: '/' :: rest))).2.1
              = (skipBlockAux (body ++ '*' :: '/' :: rest)).2.1 := by
            constructor <;> simp [skipBlockAux, hstar, hnl]
          rw [h1.1, h1.2, ih1, ih2]
          constructor
          · rw [List.filter_cons_of_neg]
            simp [hnl]
          · rfl

/-- The scanner copies a well-formed string-literal body and its closing
quote verbatim and returns to code state. -/
theorem stripChars_string : ∀ (body : List Char) (e : Bool) (rest : List Char),
    okStrBody body e = true →
    stripChars (body ++ '"' :: rest) true e
      = body ++ '"' :: stripChars rest false false
  | [], e, rest, h => by
      have he : e = false := by
        cases e
        · rfl
        · simp [okStrBody] at h
      subst he
      simp [stripChars]
  | c :: body, true, rest, h => by
      rw [okStrBody] at h
      rw [List.cons_append]
      simp only [stripChars, if_pos rfl]
      rw [stripChars_string body false rest h]
      simp
  | c :: body, false, rest, h => by
      rw [okStrBody] at h
      by_cases hc : c = '\\'
      · rw [if_pos hc] at h
        subst hc
        rw [List.cons_append]
        simp only [stripChars]
        rw [stripChars_string body true rest h]
        simp
      · rw [if_neg hc] at h
        rw [Bool.and_eq_true, bne_iff_ne] at h
        rw [List.cons_append]
        simp only [stripChars, if_neg hc, if_neg h.1]
        rw [stripChars_string body false rest h.2]
        simp [Bool.false_eq_true, if_neg hc, if_neg h.1]

/-- Every segment's input starts with its head character. -/
theorem segInput_head : ∀ (s : Seg), ∃ t, segInput s = segHead s :: t
  | .ch _ => ⟨[], rfl⟩
  | .strLit body => ⟨body ++ ['"'], rfl⟩
  | .lineComment body => ⟨'/' :: body ++ ['\n'], rfl⟩
  | .blockComment body => ⟨'*' :: body ++ ['*', '/'], rfl⟩
  | .slash => ⟨[], rfl⟩

/-- Claim C9, core statement: on any input decomposed into plain text,
string literals, line comments, block comments and lone slashes, the
scanner copies text and string literals (comment markers inside
literals included) character for character, collapses each line comment
to a newline and each block comment to its newlines. -/
theorem stripChars_segments : ∀ (segs : List Seg), segsWf segs = true →
    stripChars ((segs.map segInput).flatten) false false
      = (segs.map segOutput).flatten
  | [], _ => by
      rw [List.map_nil, List.map_nil, List.flatten_nil]
      simp [stripChars]
  | .ch c :: segs, h => by
      rw [segsWf, Bool.and_eq_true, Bool.and_eq_true] at h
      obtain ⟨⟨hwf, _⟩, hrest⟩ := h
      rw [segWf, Bool.and_eq_true, bne_iff_ne, bne_iff_ne] at hwf
      simp only [List.map_cons, List.flatten_cons, segInput, segOutput,
        List.cons_append, List.nil_append]
      have he : stripChars (c :: (segs.map segInput).flatten) false false
          = c :: stripChars ((segs.map segInput).flatten) false false := by
        simp [stripChars, hwf.1, hwf.2]
      rw [he, stripChars_segments segs hrest]
  | .strLit body :: segs, h => by
      rw [segsWf, Bool.and_eq_true, Bool.and_eq_true] at h
      obtain ⟨⟨hwf, _⟩, hrest⟩ := h
      rw [segWf] at hwf
      simp only [List.map_cons, List.flatten_cons, segInput, segOutput,
        List.cons_append, List.append_assoc, List.singleton_append,
        List.nil_append]
      have he : stripChars
            ('"' :: (body ++ '"' :: (segs.map segInput).flatten)) false false
          = '"' :: stripChars (body ++ '"' :: (segs.map segInput).flatten)
              true false := by
        simp [stripChars]
      rw [he, stripChars_string body false _ hwf,
        stripChars_segments segs hrest]
  | .lineComment body :: segs, h => by
      rw [segsWf, Bool.and_eq_true, Bool.and_eq_true] at h
      obtain ⟨⟨hwf, _⟩, hrest⟩ := h
      rw [segWf, Bool.not_eq_true'] at hwf
      simp only [List.map_cons, List.flatten_cons, segInput, segOutput,
        List.cons_append, List.append_assoc, List.singleton_append,
        List.nil_append]
      have he : stripChars
            ('/' :: '/' :: (body ++ '\n' :: (segs.map segInput).flatten))
            false false
          = '\n' :: stripChars
              (dropLine (body ++ '\n' :: (segs.map segInput).flatten)).1
              false false := by
        simp [stripChars]
      rw [he, dropLine_across body _ hwf, stripChars_segments segs hrest]
  | .blockComment body :: segs, h => by
      rw [segsWf, Bool.and_eq_true, Bool.and_eq_true] at h
      obtain ⟨⟨hwf, _⟩, hrest⟩ := h
      rw [segWf, Bool.not_eq_true'] at hwf
      simp only [List.map_cons, List.flatten_cons, segInput, segOutput,
        List.cons_append, List.append_assoc, List.singleton_append,
        List.nil_append]
      have he : stripChars
            ('/' :: '*' :: (body ++ '*' :: '/' :: (segs.map segInput).flatten))
            false false
          = (skipBlockAux
              (body ++ '*' :: '/' :: (segs.map segInput).flatten)).1
            ++ stripChars
              (skipBlockAux
                (body ++ '*' :: '/' :: (segs.map segInput).flatten)).2.1
              false false := by
        simp [stripChars]
      obtain ⟨hb1, hb2⟩ :=
        skipBlock_across body ((segs.map segInput).flatten) hwf
      rw [he, hb1, hb2, stripChars_segments segs hrest]
  | .slash :: segs, h => by
      rw [segsWf, Bool.and_eq_true, Bool.and_eq_true] at h
      obtain ⟨⟨_, hchain⟩, hrest⟩ := h
      simp only [List.map_cons, List.flatten_cons, segInput, segOutput,
        List.cons_append, List.nil_append]
      cases segs with
      | nil =>
          rw [List.map_nil, List.flatten_nil, List.map_nil, List.flatten_nil]
          simp [stripChars]
      | cons s2 rest2 =>
          rw [chainOk, Bool.not_eq_true', Bool.or_eq_false_iff,
            beq_eq_false_iff_ne, beq_eq_false_iff_ne] at hchain
          obtain ⟨t, ht⟩ := segInput_head s2
          rw [List.map_cons, List.flatten_cons, ht, List.cons_append]
          have he : stripChars ('/' :: segHead s2
                :: (t ++ (rest2.map segInput).flatten)) false false
              = '/' :: stripChars (segHead s2
                  :: (t ++ (rest2.map segInput).flatten)) false false := by
            simp [stripChars, hchain.1, hchain.2]
          rw [he, ← List.cons_append, ← ht, ← List.flatten_cons,
            ← List.map_cons, stripChars_segments (s2 :: rest2) hrest]


/-- Claim C9: `strip_json_comments` removes line and block comments while
preserving, character for character, the contents of double-quoted
string literals and all text outside comments and strings. -/
theorem C9_strip_json_comments (segs : List Seg) (h : segsWf segs = true) :
    stripJsonComments (String.mk ((segs.map segInput).flatten))
      = String.mk ((segs.map segOutput).flatten) := by
  rw [stripJsonComments]
  rw [show (String.mk ((segs.map segInput).flatten)).data
        = (segs.map segInput).flatten from rfl]
  rw [stripChars_segments segs h]

/-- Witness for C9: a config line with comment markers inside a string
literal, a block comment and a line comment. -/
theorem C9_strip_json_comments_witness :
    stripJsonComments
        (String.mk ((([.ch 'a', .strLit ['/', '/', 'x'], .blockComment ['b'],
            .slash, .ch 'y', .lineComment ['z']] : List Seg).map segInput).flatten))
      = String.mk ((([.ch 'a', .strLit ['/', '/', 'x'], .blockComment ['b'],
            .slash, .ch 'y', .lineComment ['z']] : List Seg).map segOutput).flatten) :=
  C9_strip_json_comments
    [.ch 'a', .strLit ['/', '/', 'x'], .blockComment ['b'],
     .slash, .ch 'y', .lineComment ['z']] (by decide)

/-- The visiting set is restored by every engine call: whatever a call
returns, the visiting set after it equals the one before it (names are
unmarked on every exit path). -/
theorem runRestore (cfg : HookConfig) (oracle : Oracle) : ∀ (fuel : Nat),
    (∀ spec hook extra v out,
      runSpec cfg oracle fuel spec hook extra v = some out → out.2.1 = v) ∧
    (∀ items hook extra v out,
      runSeqItems cfg oracle fuel items hook extra v = some out → out.2.1 = v) ∧
    (∀ deps v out,
      runDeps cfg oracle fuel deps v = some out → out.2.1 = v) ∧
    (∀ name extra v1 out,
      runResolve cfg oracle fuel name extra v1 = some out → out.2.1 = v1) ∧
    (∀ name extra v out,
      runSingle cfg oracle fuel name extra v = some out → out.2.1 = v) := by
  intro fuel
  induction fuel with
  | zero =>
      refine ⟨?_, ?_, ?_, ?_, ?_⟩
      · intro spec hook extra v out h
        simp [runSpec] at h
      · intro items hook extra v out h
        simp [runSeqItems] at h
      · intro deps v out h
        simp [runDeps] at h
      · intro name extra v1 out h
        simp [runResolve] at h
      · intro name extra v out h
        simp [runSingle] at h
  | succ fuel ih =>
      obtain ⟨ihSpec, ihSeq, ihDeps, ihRes, ihSingle⟩ := ih
      refine ⟨?_, ?_, ?_, ?_, ?_⟩
      · intro spec hook extra v out h
        cases spec with
        | single name =>
            rw [runSpec] at h
            exact ihSingle name extra v out h
        | detailed command description deps =>
            rw [runSpec] at h
            cases hd : runDeps cfg oracle fuel deps v with
            | none => rw [hd] at h; cases h
            | some dout =>
                obtain ⟨r, v2, tr⟩ := dout
                have hv2 : v2 = v := ihDeps deps v (r, v2, tr) hd
                rw [hd] at h
                cases r with
                | error e => cases h; exact hv2
                | ok u =>
                    cases command with
                    | some cmd => cases h; exact hv2
                    | none => cases h; exact hv2
        | sequence list =>
            rw [runSpec] at h
            exact ihSeq list hook extra v out h
      · intro items hook extra v out h
        cases items with
        | nil => rw [runSeqItems] at h; cases h; rfl
        | cons item rest =>
            rw [runSeqItems] at h
            cases hs : runSpec cfg oracle fuel item hook extra v with
            | none => rw [hs] at h; cases h
            | some sout =>
                obtain ⟨r, v2, tr⟩ := sout
                have hv2 : v2 = v := ihSpec item hook extra v (r, v2, tr) hs
                rw [hs] at h
                cases r with
                | error e => cases h; exact hv2
                | ok u =>
                    dsimp only at h
                    cases hr : runSeqItems cfg oracle fuel rest hook extra v2 with
                    | none => rw [hr] at h; cases h
                    | some rout =>
                        obtain ⟨r3, v3, tr3⟩ := rout
                        have hv3 : v3 = v2 :=
                          ihSeq rest hook extra v2 (r3, v3, tr3) hr
                        rw [hr] at h
                        cases h
                        exact hv3.trans hv2
      · intro deps v out h
        cases deps with
        | nil => rw [runDeps] at h; cases h; rfl
        | cons dep rest =>
            rw [runDeps] at h
            cases hs : runSingle cfg oracle fuel dep [] v with
            | none => rw [hs] at h; cases h
            | some sout =>
                obtain ⟨r, v2, tr⟩ := sout
                have hv2 : v2 = v := ihSingle dep [] v (r, v2, tr) hs
                rw [hs] at h
                cases r with
                | error e => cases h; exact hv2
                | ok u =>
                    dsimp only at h
                    cases hr : runDeps cfg oracle fuel rest v2 with
                    | none => rw [hr] at h; cases h
                    | some rout =>
                        obtain ⟨r3, v3, tr3⟩ := rout
                        have hv3 : v3 = v2 := ihDeps rest v2 (r3, v3, tr3) hr
                        rw [hr] at h
                        cases h
                        exact hv3.trans hv2
      · intro name extra v1 out h
        rw [runResolve] at h
        cases hdeno : lookupAssoc cfg.denoTasks name with
        | some cmd =>
            rw [hdeno] at h
            cases h
            rfl
        | none =>
            rw [hdeno] at h
            dsimp only at h
            cases hnode : lookupAssoc cfg.nodeScripts name with
            | some script =>
                rw [hnode] at h
                cases h
                rfl
            | none =>
                rw [hnode] at h
                dsimp only at h
                cases hhook : lookupAssoc cfg.hooks name with
                | some spec =>
                    rw [hhook] at h
                    exact ihSpec spec name extra v1 out h
                | none =>
                    rw [hhook] at h
                    cases h
                    rfl
      · intro name extra v out h
        rw [runSingle] at h
        by_cases hmem : v.contains name
        · rw [if_pos hmem] at h
          cases h
          rfl
        · rw [if_neg hmem] at h
          cases hr : runResolve cfg oracle fuel name extra (name :: v) with
          | none => rw [hr] at h; cases h
          | some rout =>
              obtain ⟨r, v2, tr⟩ := rout
              have hv2 : v2 = name :: v :=
                ihRes name extra (name :: v) (r, v2, tr) hr
              rw [hr] at h
              cases h
              rw [hv2, List.erase_cons_head]

/-- Fuel monotonicity: a defined result is stable under extra fuel. -/
theorem runMono (cfg : HookConfig) (oracle : Oracle) : ∀ (fuel fuel2 : Nat),
    fuel ≤ fuel2 →
    (∀ spec hook extra v out,
      runSpec cfg oracle fuel spec hook extra v = some out →
      runSpec cfg oracle fuel2 spec hook extra v = some out) ∧
    (∀ items hook extra v out,
      runSeqItems cfg oracle fuel items hook extra v = some out →
      runSeqItems cfg oracle fuel2 items hook extra v = some out) ∧
    (∀ deps v out,
      runDeps cfg oracle fuel deps v = some out →
      runDeps cfg oracle fuel2 deps v = some out) ∧
    (∀ name extra v1 out,
      runResolve cfg oracle fuel name extra v1 = some out →
      runResolve cfg oracle fuel2 name extra v1 = some out) ∧
    (∀ name extra v out,
      runSingle cfg oracle fuel name extra v = some out →
      runSingle cfg oracle fuel2 name extra v = some out) := by
  intro fuel
  induction fuel with
  | zero =>
      intro fuel2 _
      refine ⟨?_, ?_, ?_, ?_, ?_⟩
      · intro spec hook extra v out h
        simp [runSpec] at h
      · intro items hook extra v out h
        simp [runSeqItems] at h
      · intro deps v out h
        simp [runDeps] at h
      · intro name extra v1 out h
        simp [runResolve] at h
      · intro name extra v out h
        simp [runSingle] at h
  | succ fuel ih =>
      intro fuel2 hle
      cases fuel2 with
      | zero => exact absurd hle (by omega)
      | succ k =>
          have hk : fuel ≤ k := by omega
          obtain ⟨ihSpec, ihSeq, ihDeps, ihRes, ihSingle⟩ := ih k hk
          refine ⟨?_, ?_, ?_, ?_, ?_⟩
          · intro spec hook extra v out h
            cases spec with
            | single name =>
                rw [runSpec] at h ⊢
                exact ihSingle name extra v out h
            | detailed command description deps =>
                rw [runSpec] at h ⊢
                cases hd : runDeps cfg oracle fuel deps v with
                | none => rw [hd] at h; cases h
                | some dout =>
                    rw [hd] at h
                    rw [ihDeps deps v dout hd]
                    exact h
            | sequence list =>
                rw [runSpec] at h ⊢
                exact ihSeq list hook extra v out h
          · intro items hook extra v out h
            cases items with
            | nil =>
                rw [runSeqItems] at h ⊢
                exact h
            | cons item rest =>
                rw [runSeqItems] at h ⊢
                cases hs : runSpec cfg oracle fuel item hook extra v with
                | none => rw [hs] at h; cases h
                | some sout =>
                    rw [hs] at h
                    rw [ihSpec item hook extra v sout hs]
                    obtain ⟨r, v2, tr⟩ := sout
                    cases r with
                    | error e => exact h
                    | ok u =>
                        dsimp only at h ⊢
                        cases hr : runSeqItems cfg oracle fuel rest hook
                            extra v2 with
                        | none => rw [hr] at h; cases h
                        | some rout =>
                            rw [hr] at h
                            rw [ihSeq rest hook extra v2 rout hr]
                            exact h
          · intro deps v out h
            cases deps with
            | nil =>
                rw [runDeps] at h ⊢
                exact h
            | cons dep rest =>
                rw [runDeps] at h ⊢
                cases hs : runSingle cfg oracle fuel dep [] v with
                | none => rw [hs] at h; cases h
                | some sout =>
                    rw [hs] at h
                    rw [ihSingle dep [] v sout hs]
                    obtain ⟨r, v2, tr⟩ := sout
                    cases r with
                    | error e => exact h
                    | ok u =>
                        dsimp only at h ⊢
                        cases hr : runDeps cfg oracle fuel rest v2 with
                        | none => rw [hr] at h; cases h
                        | some rout =>
                            rw [hr] at h
                            rw [ihDeps rest v2 rout hr]
                            exact h
          · intro name extra v1 out h
            rw [runResolve] at h ⊢
            cases hdeno : lookupAssoc cfg.denoTasks name with
            | some cmd =>
                rw [hdeno] at h
                exact h
            | none =>
                rw [hdeno] at h
                dsimp only at h ⊢
                cases hnode : lookupAssoc cfg.nodeScripts name with
                | some script =>
                    rw [hnode] at h
                    exact h
                | none =>
                    rw [hnode] at h
                    dsimp only at h ⊢
                    cases hhook : lookupAssoc cfg.hooks name with
                    | some spec =>
                        rw [hhook] at h
                        exact ihSpec spec name extra v1 out h
                    | none =>
                        rw [hhook] at h
                        exact h
          · intro name extra v out h
            rw [runSingle] at h ⊢
            by_cases hmem : v.contains name
            · rw [if_pos hmem] at h ⊢
              exact h
            · rw [if_neg hmem] at h ⊢
              cases hr : runResolve cfg oracle fuel name extra (name :: v) with
              | none => rw [hr] at h; cases h
              | some rout =>
                  rw [hr] at h
                  rw [ihRes name extra (name :: v) rout hr]
                  exact h

/-- A successful association lookup means the key is among the keys. -/
theorem lookupAssoc_mem {α : Type} : ∀ (l : List (String × α)) (k : String)
    (a : α), lookupAssoc l k = some a → k ∈ l.map Prod.fst
  | [], k, a, h => by cases h
  | (k2, v2) :: rest, k, a, h => by
      rw [lookupAssoc] at h
      by_cases he : k2 = k
      · rw [List.map_cons, he]
        exact List.mem_cons_self _ _
      · rw [if_neg he] at h
        exact List.mem_cons_of_mem _ (lookupAssoc_mem rest k a h)

/-- Strengthening the filter predicate at a retained element strictly
shrinks the filtered length. -/
theorem filter_length_lt (p q : String → Bool) :
    ∀ (l : List String), (∀ x, q x = true → p x = true) →
    ∀ x, x ∈ l → p x = true → q x = false →
    (l.filter q).length < (l.filter p).length
  | [], _, x, hx, _, _ => by cases hx
  | y :: l, himp, x, hx, hpx, hqx => by
      have hle : (l.filter q).length ≤ (l.filter p).length :=
        (List.monotone_filter_right l (fun a ha => himp a ha)).length_le
      by_cases hy : x = y
      · subst hy
        rw [List.filter_cons_of_pos hpx,
          List.filter_cons_of_neg (by rw [hqx]; exact Bool.false_ne_true)]
        rw [List.length_cons]
        omega
      · have hm : x ∈ l := by
          rcases List.mem_cons.mp hx with he | hm
          · exact absurd he hy
          · exact hm
        have ih := filter_length_lt p q l himp x hm hpx hqx
        cases hqy : q y with
        | true =>
            rw [List.filter_cons_of_pos (himp y hqy),
              List.filter_cons_of_pos hqy, List.length_cons, List.length_cons]
            omega
        | false =>
            rw [List.filter_cons_of_neg (by rw [hqy]; exact Bool.false_ne_true)]
            cases hpy : p y with
            | true =>
                rw [List.filter_cons_of_pos hpy, List.length_cons]
                omega
            | false =>
                rw [List.filter_cons_of_neg
                  (by rw [hpy]; exact Bool.false_ne_true)]
                exact ih

/-- Marking a hook name as visiting strictly decreases the number of
unvisited hook names. -/
theorem keysOutside_cons_lt (cfg : HookConfig) (name : String)
    (v : List String) (hmem : v.contains name = false)
    (hk : name ∈ cfg.hooks.map Prod.fst) :
    keysOutside cfg (name :: v) < keysOutside cfg v := by
  apply filter_length_lt (fun k => !v.contains k)
      (fun k => !(name :: v).contains k) (cfg.hooks.map Prod.fst)
  · intro x hq
    rw [Bool.not_eq_true', List.contains_cons, Bool.or_eq_false_iff] at hq
    rw [Bool.not_eq_true', hq.2]
  · exact hk
  · rw [Bool.not_eq_true', hmem]
  · rw [Bool.not_eq_false', List.contains_cons]
    simp

mutual

/-- Termination of `run_spec`: some finite fuel suffices. -/
theorem termSpec (cfg : HookConfig) (oracle : Oracle) (k : Nat)
    (v : List String) (spec : TaskSpec) (hook : String)
    (extra : List String) (h : keysOutside cfg v ≤ k) :
    ∃ fuel out, runSpec cfg oracle fuel spec hook extra v = some out := by
  cases spec with
  | single name =>
      obtain ⟨fuel, out, hout⟩ := termSingle cfg oracle k v name extra h
      exact ⟨fuel + 1, out, by rw [runSpec]; exact hout⟩
  | detailed command description deps =>
      obtain ⟨fuel, out, hout⟩ := termDeps cfg oracle k v deps h
      obtain ⟨r, v2, tr⟩ := out
      cases r with
      | error e => exact ⟨fuel + 1, (.error e, v2, tr), by rw [runSpec, hout]⟩
      | ok u =>
          cases command with
          | some cmd =>
              exact ⟨fuel + 1,
                ((execRawCommand oracle cmd extra).1, v2,
                  tr ++ (execRawCommand oracle cmd extra).2),
                by rw [runSpec, hout]⟩
          | none =>
              exact ⟨fuel + 1, (.ok (), v2, tr), by rw [runSpec, hout]⟩
  | sequence list =>
      obtain ⟨fuel, out, hout⟩ := termSeq cfg oracle k v list hook extra h
      exact ⟨fuel + 1, out, by rw [runSpec]; exact hout⟩

/-- Termination of the sequence loop. -/
theorem termSeq (cfg : HookConfig) (oracle : Oracle) (k : Nat)
    (v : List String) (items : List TaskSpec) (hook : String)
    (extra : List String) (h : keysOutside cfg v ≤ k) :
    ∃ fuel out, runSeqItems cfg oracle fuel items hook extra v = some out := by
  cases items with
  | nil => exact ⟨1, (.ok (), v, []), by rw [runSeqItems]⟩
  | cons item rest =>
      obtain ⟨f1, out1, hout1⟩ := termSpec cfg oracle k v item hook extra h
      obtain ⟨r, v2, tr⟩ := out1
      have hv2 : v2 = v :=
        (runRestore cfg oracle f1).1 item hook extra v (r, v2, tr) hout1
      subst hv2
      cases r with
      | error e =>
          exact ⟨f1 + 1, (.error e, v2, tr), by rw [runSeqItems, hout1]⟩
      | ok u =>
          obtain ⟨f2, out2, hout2⟩ := termSeq cfg oracle k v2 rest hook extra h
          obtain ⟨r2, v3, tr2⟩ := out2
          have hm1 := ((runMono cfg oracle f1 (max f1 f2)
            (le_max_left f1 f2)).1) item hook extra v2 (.ok u, v2, tr) hout1
          have hm2 := ((runMono cfg oracle f2 (max f1 f2)
            (le_max_right f1 f2)).2.1) rest hook extra v2 (r2, v3, tr2) hout2
          refine ⟨max f1 f2 + 1, (r2, v3, tr ++ tr2), ?_⟩
          rw [runSeqItems, hm1]
          dsimp only
          rw [hm2]

/-- Termination of the dependency loop. -/
theorem termDeps (cfg : HookConfig) (oracle : Oracle) (k : Nat)
    (v : List String) (deps : List String) (h : keysOutside cfg v ≤ k) :
    ∃ fuel out, runDeps cfg oracle fuel deps v = some out := by
  cases deps with
  | nil => exact ⟨1, (.ok (), v, []), by rw [runDeps]⟩
  | cons dep rest =>
      obtain ⟨f1, out1, hout1⟩ := termSingle cfg oracle k v dep [] h
      obtain ⟨r, v2, tr⟩ := out1
      have hv2 : v2 = v :=
        (runRestore cfg oracle f1).2.2.2.2 dep [] v (r, v2, tr) hout1
      subst hv2
      cases r with
      | error e =>
          exact ⟨f1 + 1, (.error e, v2, tr), by rw [runDeps, hout1]⟩
      | ok u =>
          obtain ⟨f2, out2, hout2⟩ := termDeps cfg oracle k v2 rest h
          obtain ⟨r2, v3, tr2⟩ := out2
          have hm1 := ((runMono cfg oracle f1 (max f1 f2)
            (le_max_left f1 f2)).2.2.2.2) dep [] v2 (.ok u, v2, tr) hout1
          have hm2 := ((runMono cfg oracle f2 (max f1 f2)
            (le_max_right f1 f2)).2.2.1) rest v2 (r2, v3, tr2) hout2
          refine ⟨max f1 f2 + 1, (r2, v3, tr ++ tr2), ?_⟩
          rw [runDeps, hm1]
          dsimp only
          rw [hm2]

/-- Termination of `run_single`: the visiting set can only grow towards
the finite set of hook names, so some finite fuel suffices. -/
theorem termSingle (cfg : HookConfig) (oracle : Oracle) (k : Nat)
    (v : List String) (name : String) (extra : List String)
    (h : keysOutside cfg v ≤ k) :
    ∃ fuel out, runSingle cfg oracle fuel name extra v = some out := by
  by_cases hmem : v.contains name
  · exact ⟨1, (.error (.circularDependency name), v, []),
      by rw [runSingle, if_pos hmem]⟩
  · cases hdeno : lookupAssoc cfg.denoTasks name with
    | some cmd =>
        refine ⟨2, ((execDenoTask oracle name extra).1,
          (name :: v).erase name, (execDenoTask oracle name extra).2), ?_⟩
        rw [runSingle, if_neg hmem, runResolve, hdeno]
    | none =>
        cases hnode : lookupAssoc cfg.nodeScripts name with
        | some script =>
            refine ⟨2, ((execNodeScript cfg oracle name extra).1,
              (name :: v).erase name,
              (execNodeScript cfg oracle name extra).2), ?_⟩
            rw [runSingle, if_neg hmem, runResolve, hdeno]
            dsimp only
            rw [hnode]
        | none =>
            cases hhook : lookupAssoc cfg.hooks name with
            | some spec =>
                have hkmem : name ∈ cfg.hooks.map Prod.fst :=
                  lookupAssoc_mem cfg.hooks name spec hhook
                have hlt : keysOutside cfg (name :: v) < keysOutside cfg v :=
                  keysOutside_cons_lt cfg name v
                    (Bool.not_eq_true _ ▸ Bool.of_not_eq_true hmem) hkmem
                cases k with
                | zero => omega
                | succ k2 =>
                    have h2 : keysOutside cfg (name :: v) ≤ k2 := by omega
                    obtain ⟨fuel, out, hout⟩ :=
                      termSpec cfg oracle k2 (name :: v) spec name extra h2
                    obtain ⟨r, v2, tr⟩ := out
                    refine ⟨fuel + 2, (r, v2.erase name, tr), ?_⟩
                    rw [runSingle, if_neg hmem, runResolve, hdeno]
                    dsimp only
                    rw [hnode]
                    dsimp only
                    rw [hhook]
                    dsimp only
                    rw [hout]
            | none =>
                refine ⟨2, ((execRawCommand oracle name extra).1,
                  (name :: v).erase name,
                  (execRawCommand oracle name extra).2), ?_⟩
                rw [runSingle, if_neg hmem, runResolve, hdeno]
                dsimp only
                rw [hnode]
                dsimp only
                rw [hhook]

end

/-- Claim C6: `run_single` unmarks the name on every exit path, so the
visiting set after any engine call equals the set before it, and a name
that ran successfully can run again in a sibling branch (it is no longer
marked). -/
theorem C6_visiting_set (cfg : HookConfig) (oracle : Oracle) :
    (∀ fuel name extra v r v2 tr,
      runSingle cfg oracle fuel name extra v = some (r, v2, tr) → v2 = v) ∧
    (∀ fuel spec hook extra v r v2 tr,
      runSpec cfg oracle fuel spec hook extra v = some (r, v2, tr) → v2 = v) ∧
    (∀ g d v tr,
      runSingle cfg oracle (g + 1) d [] v = some (.ok (), v, tr) →
      runDeps cfg oracle (g + 3) [d, d] v
        = some (.ok (), v, tr ++ (tr ++ []))) := by
  refine ⟨?_, ?_, ?_⟩
  · intro fuel name extra v r v2 tr h
    exact (runRestore cfg oracle fuel).2.2.2.2 name extra v (r, v2, tr) h
  · intro fuel spec hook extra v r v2 tr h
    exact (runRestore cfg oracle fuel).1 spec hook extra v (r, v2, tr) h
  · intro g d v tr h
    have h2 : runSingle cfg oracle (g + 2) d [] v = some (.ok (), v, tr) :=
      (runMono cfg oracle (g + 1) (g + 2) (by omega)).2.2.2.2 d [] v
        (.ok (), v, tr) h
    rw [show g + 3 = (g + 2) + 1 from rfl, runDeps, h2]
    dsimp only
    rw [show g + 2 = (g + 1) + 1 from rfl, runDeps, h]
    dsimp only
    rw [runDeps]

/-- Witness for C6 at a concrete configuration: a raw command restores
the visiting set, and the restoration conjuncts apply to it. -/
theorem C6_visiting_set_witness :
    ("x" :: ["y"]).erase "x" = ["y"] ∧
    (runSingle ⟨[], [], [], none⟩ (fun _ => 0) 2 "x" [] ["y"]
      = some (.ok (), ["y"], [⟨"sh", ["-c", "x"]⟩])) ∧
    ["y"] = ["y"] :=
  ⟨rfl, by decide,
    (C6_visiting_set ⟨[], [], [], none⟩ (fun _ => 0)).1 2 "x" [] ["y"]
      (.ok ()) ["y"] [⟨"sh", ["-c", "x"]⟩] (by decide)⟩

/-- Running the dependency lists in two pieces: a successful prefix
followed by any suffix, with fuels added and traces concatenated. -/
theorem runDeps_append (cfg : HookConfig) (oracle : Oracle) :
    ∀ (l1 : List String) (f1 f2 : Nat) (l2 v v1 : List String)
      (tr1 : List Invocation) (out2 : RunResult),
    runDeps cfg oracle f1 l1 v = some (.ok (), v1, tr1) →
    runDeps cfg oracle f2 l2 v1 = some out2 →
    runDeps cfg oracle (f1 + f2) (l1 ++ l2) v
      = some (out2.1, out2.2.1, tr1 ++ out2.2.2)
  | [], f1, f2, l2, v, v1, tr1, out2, h1, h2 => by
      cases f1 with
      | zero => simp [runDeps] at h1
      | succ g =>
          rw [runDeps] at h1
          cases h1
          rw [List.nil_append]
          have hm := (runMono cfg oracle f2 (g + 1 + f2) (by omega)).2.2.1
            l2 v out2 h2
          obtain ⟨r2, v2, tr2⟩ := out2
          simpa using hm
  | dep :: rest, f1, f2, l2, v, v1, tr1, out2, h1, h2 => by
      cases f1 with
      | zero => simp [runDeps] at h1
      | succ g =>
          rw [runDeps] at h1
          cases hs : runSingle cfg oracle g dep [] v with
          | none => rw [hs] at h1; cases h1
          | some sout =>
              obtain ⟨r, v0, tr0⟩ := sout
              rw [hs] at h1
              cases r with
              | error e => cases h1
              | ok u =>
                  cases u
                  dsimp only at h1
                  cases hr : runDeps cfg oracle g rest v0 with
                  | none => rw [hr] at h1; cases h1
                  | some rout =>
                      obtain ⟨r3, v3, tr3⟩ := rout
                      rw [hr] at h1
                      cases h1
                      have hmid := runDeps_append cfg oracle rest g f2 l2
                        v0 v1 tr3 out2 hr h2
                      have hs2 := (runMono cfg oracle g (g + f2)
                        (by omega)).2.2.2.2 dep [] v (.ok (), v0, tr0) hs
                      rw [List.cons_append,
                        show g + 1 + f2 = (g + f2) + 1 from by omega,
                        runDeps, hs2]
                      dsimp only
                      rw [hmid]
                      rw [List.append_assoc]

/-- A dependency list containing a name that is already marked visiting
can never complete successfully. -/
theorem runDeps_visiting_not_ok (cfg : HookConfig) (oracle : Oracle) :
    ∀ (deps : List String) (fuel : Nat) (name : String) (v : List String)
      (out : RunResult),
    name ∈ deps → v.contains name = true →
    runDeps cfg oracle fuel deps v = some out → out.1 ≠ .ok ()
  | [], fuel, name, v, out, hmem, _, _ => absurd hmem (List.not_mem_nil name)
  | dep :: rest, fuel, name, v, out, hmem, hvis, hrun => by
      cases fuel with
      | zero => simp [runDeps] at hrun
      | succ g =>
          rw [runDeps] at hrun
          cases hs : runSingle cfg oracle g dep [] v with
          | none => rw [hs] at hrun; cases hrun
          | some sout =>
              obtain ⟨r, v2, tr⟩ := sout
              rw [hs] at hrun
              cases r with
              | error e =>
                  cases hrun
                  exact fun hc => Except.noConfusion hc
              | ok u =>
                  have hv2 : v2 = v :=
                    (runRestore cfg oracle g).2.2.2.2 dep [] v
                      (.ok u, v2, tr) hs
                  subst hv2
                  dsimp only at hrun
                  cases hr : runDeps cfg oracle g rest v2 with
                  | none => rw [hr] at hrun; cases hrun
                  | some rout =>
                      obtain ⟨r3, v3, tr3⟩ := rout
                      rw [hr] at hrun
                      cases hrun
                      rcases List.mem_cons.mp hmem with he | hm
                      · subst he
                        cases g with
                        | zero => simp [runSingle] at hs
                        | succ g2 =>
                            rw [runSingle, if_pos hvis] at hs
                            injection hs with hs2
                            exact absurd (congrArg Prod.fst hs2)
                              (fun hc => Except.noConfusion hc)
                      · exact runDeps_visiting_not_ok cfg oracle rest g name
                          v2 (r3, v3, tr3) hm hvis hr

/-- Claim C1: the engine always terminates (some finite fuel yields a
result, for every configuration, spec and visiting set); re-reaching a
name that is currently being resolved fails with `CircularDependency`
naming it; a hook whose dependency list starts with its own name fails
with `CircularDependency` without spawning anything; and a hook whose
dependency list contains its own name anywhere can never succeed. -/
theorem C1_cycle_termination :
    (∀ (cfg : HookConfig) (oracle : Oracle) (spec : TaskSpec) (hook : String)
        (extra v : List String),
       ∃ fuel out, runSpec cfg oracle fuel spec hook extra v = some out) ∧
    (∀ (cfg : HookConfig) (oracle : Oracle) (name : String)
        (extra v : List String),
       ∃ fuel out, runSingle cfg oracle fuel name extra v = some out) ∧
    (∀ (cfg : HookConfig) (oracle : Oracle) (fuel : Nat) (name : String)
        (extra v : List String), v.contains name = true →
       runSingle cfg oracle (fuel + 1) name extra v
         = some (.error (.circularDependency name), v, [])) ∧
    (∀ (cfg : HookConfig) (oracle : Oracle) (name : String)
        (cmdv descv : Option String) (rest extra : List String),
       lookupAssoc cfg.denoTasks name = none →
       lookupAssoc cfg.nodeScripts name = none →
       lookupAssoc cfg.hooks name = some (.detailed cmdv descv (name :: rest)) →
       runSingle cfg oracle 5 name extra []
         = some (.error (.circularDependency name), [], [])) ∧
    (∀ (cfg : HookConfig) (oracle : Oracle) (name : String)
        (cmdv descv : Option String) (deps : List String)
        (extra : List String) (fuel : Nat) (out : RunResult),
       lookupAssoc cfg.denoTasks name = none →
       lookupAssoc cfg.nodeScripts name = none →
       lookupAssoc cfg.hooks name = some (.detailed cmdv descv deps) →
       name ∈ deps →
       runSingle cfg oracle fuel name extra [] = some out →
       out.1 ≠ .ok ()) := by
  refine ⟨?_, ?_, ?_, ?_, ?_⟩
  · intro cfg oracle spec hook extra v
    exact termSpec cfg oracle (keysOutside cfg v) v spec hook extra
      (Nat.le_refl _)
  · intro cfg oracle name extra v
    exact termSingle cfg oracle (keysOutside cfg v) v name extra
      (Nat.le_refl _)
  · intro cfg oracle fuel name extra v h
    rw [runSingle, if_pos h]
  · intro cfg oracle name cmdv descv rest extra hdeno hnode hhook
    rw [show (5 : Nat) = 4 + 1 from rfl, runSingle, if_neg (by simp)]
    rw [show (4 : Nat) = 3 + 1 from rfl, runResolve, hdeno]
    dsimp only
    rw [hnode]
    dsimp only
    rw [hhook]
    dsimp only
    rw [show (3 : Nat) = 2 + 1 from rfl, runSpec]
    rw [show (2 : Nat) = 1 + 1 from rfl, runDeps]
    rw [show (1 : Nat) = 0 + 1 from rfl, runSingle, if_pos (by simp)]
    dsimp only
    rw [List.erase_cons_head]
  · intro cfg oracle name cmdv descv deps extra fuel out hdeno hnode hhook
      hmem hrun
    cases fuel with
    | zero => simp [runSingle] at hrun
    | succ f1 =>
        rw [runSingle, if_neg (by simp)] at hrun
        cases hres : runResolve cfg oracle f1 name extra [name] with
        | none => rw [hres] at hrun; cases hrun
        | some rout =>
            obtain ⟨r, v2, tr⟩ := rout
            rw [hres] at hrun
            cases hrun
            cases f1 with
            | zero => simp [runResolve] at hres
            | succ f2 =>
                rw [runResolve, hdeno] at hres
                dsimp only at hres
                rw [hnode] at hres
                dsimp only at hres
                rw [hhook] at hres
                dsimp only at hres
                cases f2 with
                | zero => simp [runSpec] at hres
                | succ f3 =>
                    rw [runSpec] at hres
                    cases hd : runDeps cfg oracle f3 deps [name] with
                    | none => rw [hd] at hres; cases hres
                    | some dout =>
                        obtain ⟨rd, vd, trd⟩ := dout
                        rw [hd] at hres
                        have hno : rd ≠ .ok () :=
                          runDeps_visiting_not_ok cfg oracle deps f3 name
                            [name] (rd, vd, trd) hmem (by simp) hd
                        cases rd with
                        | error e =>
                            cases hres
                            exact fun hc => Except.noConfusion hc
                        | ok u =>
                            cases u
                            exact absurd rfl hno

/-- Witness for C1: the spec's own example, a `pre-commit` hook whose
dependency list is exactly its own name, fails with a circular-dependency
error naming it, spawning nothing; and re-reaching a visiting name errors
immediately. -/
theorem C1_cycle_termination_witness :
    (runSingle
        ⟨[("pre-commit", .detailed none none ["pre-commit"])], [], [], none⟩
        (fun _ => 0) 5 "pre-commit" [] []
      = some (.error (.circularDependency "pre-commit"), [], [])) ∧
    (runSingle ⟨[], [], [], none⟩ (fun _ => 0) (0 + 1) "a" [] ["a"]
      = some (.error (.circularDependency "a"), ["a"], [])) ∧
    ((Except.error (RunnerError.circularDependency "pre-commit"),
        ([] : List String), ([] : List Invocation)).1 ≠ .ok ()) := by
  have h4 := C1_cycle_termination.2.2.2.1
    ⟨[("pre-commit", .detailed none none ["pre-commit"])], [], [], none⟩
    (fun _ => 0) "pre-commit" none none [] [] rfl rfl rfl
  refine ⟨h4, ?_, ?_⟩
  · exact C1_cycle_termination.2.2.1 ⟨[], [], [], none⟩ (fun _ => 0) 0 "a"
      [] ["a"] (by decide)
  · exact C1_cycle_termination.2.2.2.2
      ⟨[("pre-commit", .detailed none none ["pre-commit"])], [], [], none⟩
      (fun _ => 0) "pre-commit" none none ["pre-commit"] [] 5
      (.error (.circularDependency "pre-commit"), [], [])
      rfl rfl rfl (by decide) h4

/-- Claim C2: the `Detailed` arm of `run_spec` runs each dependency in
listed order via `run_named_task` (which forwards no extra arguments),
aborts on the first failing dependency without running later
dependencies or the command (the trace ends at the failure), and — when
all dependencies succeed — executes the command with the extra arguments
appended, or succeeds with no further action when there is none. -/
theorem C2_detailed_dispatch :
    (∀ (cfg : HookConfig) (oracle : Oracle) (fuel : Nat) (name : String)
        (v : List String),
       runNamedTask cfg oracle fuel name v
         = runSingle cfg oracle fuel name [] v) ∧
    (∀ (cfg : HookConfig) (oracle : Oracle) (f : Nat) (d : String)
        (rest : List String) (v : List String) (e : RunnerError)
        (v2 : List String) (tr : List Invocation),
       runSingle cfg oracle f d [] v = some (.error e, v2, tr) →
       runDeps cfg oracle (f + 1) (d :: rest) v = some (.error e, v2, tr)) ∧
    (∀ (cfg : HookConfig) (oracle : Oracle) (f : Nat) (d : String)
        (rest : List String) (v v2 : List String) (tr : List Invocation)
        (r3 : Except RunnerError Unit) (v3 : List String)
        (tr3 : List Invocation),
       runSingle cfg oracle f d [] v = some (.ok (), v2, tr) →
       runDeps cfg oracle f rest v2 = some (r3, v3, tr3) →
       runDeps cfg oracle (f + 1) (d :: rest) v = some (r3, v3, tr ++ tr3)) ∧
    (∀ (cfg : HookConfig) (oracle : Oracle) (f1 f2 : Nat)
        (l1 : List String) (d : String) (l2 : List String)
        (cmdO desc : Option String) (hook : String) (extra v : List String)
        (e : RunnerError) (tr1 trd : List Invocation),
       runDeps cfg oracle f1 l1 v = some (.ok (), v, tr1) →
       runSingle cfg oracle f2 d [] v = some (.error e, v, trd) →
       runSpec cfg oracle (f1 + (f2 + 1) + 1)
           (.detailed cmdO desc (l1 ++ d :: l2)) hook extra v
         = some (.error e, v, tr1 ++ trd)) ∧
    (∀ (cfg : HookConfig) (oracle : Oracle) (f : Nat) (deps : List String)
        (cmd : String) (desc : Option String) (hook : String)
        (extra v v2 : List String) (tr : List Invocation),
       runDeps cfg oracle f deps v = some (.ok (), v2, tr) →
       runSpec cfg oracle (f + 1) (.detailed (some cmd) desc deps) hook
           extra v
         = some ((execRawCommand oracle cmd extra).1, v2,
             tr ++ [⟨"sh", ["-c", composeRawCommand cmd extra]⟩])) ∧
    (∀ (cfg : HookConfig) (oracle : Oracle) (f : Nat) (deps : List String)
        (desc : Option String) (hook : String) (extra v v2 : List String)
        (tr : List Invocation),
       runDeps cfg oracle f deps v = some (.ok (), v2, tr) →
       runSpec cfg oracle (f + 1) (.detailed none desc deps) hook extra v
         = some (.ok (), v2, tr)) := by
  refine ⟨?_, ?_, ?_, ?_, ?_, ?_⟩
  · intro cfg oracle fuel name v
    rfl
  · intro cfg oracle f d rest v e v2 tr h
    rw [runDeps, h]
  · intro cfg oracle f d rest v v2 tr r3 v3 tr3 h1 h2
    rw [runDeps, h1]
    dsimp only
    rw [h2]
  · intro cfg oracle f1 f2 l1 d l2 cmdO desc hook extra v e tr1 trd h1 h2
    have hd2 : runDeps cfg oracle (f2 + 1) (d :: l2) v
        = some (.error e, v, trd) := by
      rw [runDeps, h2]
    have happ := runDeps_append cfg oracle l1 f1 (f2 + 1) (d :: l2) v v tr1
      (.error e, v, trd) h1 hd2
    rw [runSpec, happ]
  · intro cfg oracle f deps cmd desc hook extra v v2 tr h
    rw [runSpec, h]
    rfl
  · intro cfg oracle f deps desc hook extra v v2 tr h
    rw [runSpec, h]

/-- Witness for C2: with an empty configuration and an oracle that fails
the shell command `boom`, a detailed spec whose dependencies are
`[boom, never]` aborts at `boom` — the trace shows neither `never` nor
the command ran — and a successful dependency list leads to the command
running with extra arguments appended. -/
theorem C2_detailed_dispatch_witness :
    (runSpec ⟨[], [], [], none⟩
        (fun inv => if inv = ⟨"sh", ["-c", "boom"]⟩ then 1 else 0)
        (1 + (2 + 1) + 1)
        (.detailed (some "echo hi") none ([] ++ "boom" :: ["never"]))
        "pre-commit" [] []
      = some (.error (.commandFailure "boom" 1), [],
          [] ++ [⟨"sh", ["-c", "boom"]⟩])) ∧
    (runSpec ⟨[], [], [], none⟩
        (fun inv => if inv = ⟨"sh", ["-c", "boom"]⟩ then 1 else 0)
        (1 + 1) (.detailed (some "echo") none []) "pre-commit" ["x y"] []
      = some ((execRawCommand
            (fun inv => if inv = ⟨"sh", ["-c", "boom"]⟩ then 1 else 0)
            "echo" ["x y"]).1, [],
          [] ++ [⟨"sh", ["-c", composeRawCommand "echo" ["x y"]]⟩])) := by
  constructor
  · exact C2_detailed_dispatch.2.2.2.1 ⟨[], [], [], none⟩
      (fun inv => if inv = ⟨"sh", ["-c", "boom"]⟩ then 1 else 0)
      1 2 [] "boom" ["never"] (some "echo hi") none "pre-commit" [] []
      (.commandFailure "boom" 1) [] [⟨"sh", ["-c", "boom"]⟩]
      (by decide) (by decide)
  · exact C2_detailed_dispatch.2.2.2.2.1 ⟨[], [], [], none⟩
      (fun inv => if inv = ⟨"sh", ["-c", "boom"]⟩ then 1 else 0)
      1 [] "echo" none "pre-commit" ["x y"] [] [] []
      (by decide)

/-- A key that is not present looks up to nothing. -/
theorem lookupAssoc_none_of_hasKey_false :
    ∀ (l : List (String × Json)) (k : String),
    hasKey l k = false → lookupAssoc l k = none
  | [], _, _ => rfl
  | (k2, v2) :: rest, k, h => by
      rw [hasKey, List.any_cons, Bool.or_eq_false_iff] at h
      have hne : k2 ≠ k := by
        intro he
        rw [he] at h
        simp at h
      rw [lookupAssoc, if_neg hne]
      exact lookupAssoc_none_of_hasKey_false rest k
        (by rw [hasKey]; exact h.2)

/-- Association lookup across an append: the left list wins. -/
theorem lookupAssoc_append :
    ∀ (l l2 : List (String × Json)) (k : String),
    lookupAssoc (l ++ l2) k
      = match lookupAssoc l k with
        | some a => some a
        | none => lookupAssoc l2 k
  | [], l2, k => rfl
  | (k2, v2) :: rest, l2, k => by
      rw [List.cons_append, lookupAssoc, lookupAssoc]
      by_cases he : k2 = k
      · rw [if_pos he, if_pos he]
      · rw [if_neg he, if_neg he]
        exact lookupAssoc_append rest l2 k

/-- Replacing a present key makes it look up to the new value. -/
theorem lookupAssoc_setKey_self :
    ∀ (l : List (String × Json)) (k : String) (v : Json),
    hasKey l k = true → lookupAssoc (setKey l k v) k = some v
  | [], k, v, h => by rw [hasKey] at h; cases h
  | (k2, v2) :: rest, k, v, h => by
      by_cases he : k2 = k
      · rw [setKey, if_pos he, lookupAssoc, if_pos he]
      · rw [setKey, if_neg he, lookupAssoc, if_neg he]
        rw [hasKey, List.any_cons] at h
        have h2 : hasKey rest k = true := by
          rcases Bool.or_eq_true_iff.mp h with h1 | h1
          · exact absurd (by simpa using h1) he
          · exact h1
        exact lookupAssoc_setKey_self rest k v h2

/-- Replacing one key leaves every other key's lookup unchanged. -/
theorem lookupAssoc_setKey_other :
    ∀ (l : List (String × Json)) (k k2 : String) (v : Json), k2 ≠ k →
    lookupAssoc (setKey l k v) k2 = lookupAssoc l k2
  | [], _, _, _, _ => rfl
  | (k3, v3) :: rest, k, k2, v, hne => by
      by_cases he : k3 = k
      · rw [setKey, if_pos he, lookupAssoc, lookupAssoc,
          if_neg (by rw [he]; exact fun hh => hne hh.symm),
          if_neg (by rw [he]; exact fun hh => hne hh.symm)]
      · rw [setKey, if_neg he, lookupAssoc, lookupAssoc]
        by_cases he2 : k3 = k2
        · rw [if_pos he2, if_pos he2]
        · rw [if_neg he2, if_neg he2]
          exact lookupAssoc_setKey_other rest k k2 v hne

/-- Replacing a key's value preserves the key sequence. -/
theorem setKey_keys :
    ∀ (l : List (String × Json)) (k : String) (v : Json),
    (setKey l k v).map Prod.fst = l.map Prod.fst
  | [], _, _ => rfl
  | (k2, v2) :: rest, k, v => by
      by_cases he : k2 = k
      · rw [setKey, if_pos he]
        rfl
      · rw [setKey, if_neg he, List.map_cons, List.map_cons,
          setKey_keys rest k v]

/-- The hooks-map normalization is unchanged by the materialization step
of `with_hooks_map`. -/
theorem rawHooksOf_materialize (fields : List (String × Json)) :
    rawHooksOf (if hasKey fields "hooks" then fields
        else fields ++ [("hooks", Json.obj [])])
      = rawHooksOf fields := by
  by_cases hk : hasKey fields "hooks"
  · rw [if_pos hk]
  · rw [if_neg hk, rawHooksOf, rawHooksOf, lookupAssoc_append,
      lookupAssoc_none_of_hasKey_false fields "hooks" (by simpa using hk)]
    rfl

/-- Claim C7: rewriting the hooks section of an object document leaves
every other top-level field unchanged (values and key order), replaces
`hooks` by the mutated map with its keys re-sorted (sorted and a
permutation of the edit's output), applies the edit to the raw hooks map
(empty when absent or not an object), and serializes pretty-printed with
a trailing newline; a non-object document fails with
`InvalidConfigShape` and nothing is written. -/
theorem C7_mutate_hooks :
    (∀ (v : Json) (src : String)
        (mutF : List (String × Json) → Except RunnerError (List (String × Json))),
       (∀ fields, v ≠ .obj fields) →
       mutateHooksValue v src mutF = .error (.invalidConfigShape src)) ∧
    (∀ (fields : List (String × Json)) (src : String)
        (mutF : List (String × Json) → Except RunnerError (List (String × Json)))
        (m2 : List (String × Json)),
       mutF (rawHooksOf fields) = .ok m2 →
       ∃ fields2,
         withHooksMap (.obj fields) src mutF = .ok (.obj fields2) ∧
         (∀ k, k ≠ "hooks" → lookupAssoc fields2 k = lookupAssoc fields k) ∧
         lookupAssoc fields2 "hooks" = some (.obj (sortHooks m2)) ∧
         (sortHooks m2).Pairwise (fun a b => a.1 ≤ b.1) ∧
         (sortHooks m2).Perm m2 ∧
         (hasKey fields "hooks" = true →
           fields2.map Prod.fst = fields.map Prod.fst) ∧
         mutateHooksValue (.obj fields) src mutF
           = .ok (prettyJson (.obj fields2) 0 ++ "\n")) := by
  constructor
  · intro v src mutF hno
    cases v with
    | obj fields => exact absurd rfl (hno fields)
    | null => rfl
    | bool b => rfl
    | num n => rfl
    | str s => rfl
    | arr l => rfl
  · intro fields src mutF m2 hm
    have hw : withHooksMap (.obj fields) src mutF
        = .ok (.obj (setKey
            (if hasKey fields "hooks" then fields
             else fields ++ [("hooks", Json.obj [])])
            "hooks" (.obj (sortHooks m2)))) := by
      rw [withHooksMap]
      rw [rawHooksOf_materialize, hm]
    have hk1 : hasKey (if hasKey fields "hooks" then fields
        else fields ++ [("hooks", Json.obj [])]) "hooks" = true := by
      by_cases hk : hasKey fields "hooks"
      · rw [if_pos hk]
        exact hk
      · rw [if_neg hk, hasKey, List.any_append]
        simp [hasKey]
    refine ⟨setKey (if hasKey fields "hooks" then fields
        else fields ++ [("hooks", Json.obj [])]) "hooks"
        (.obj (sortHooks m2)), hw, ?_, ?_, ?_, ?_, ?_, ?_⟩
    · intro k hk
      rw [lookupAssoc_setKey_other _ "hooks" k _ hk]
      by_cases hkk : hasKey fields "hooks"
      · rw [if_pos hkk]
      · rw [if_neg hkk, lookupAssoc_append]
        rw [show lookupAssoc [("hooks", Json.obj [])] k = none from by
          rw [lookupAssoc, if_neg (fun hh => hk hh.symm)]
          rfl]
        cases lookupAssoc fields k <;> rfl
    · exact lookupAssoc_setKey_self _ "hooks" _ hk1
    · rw [sortHooks]
      exact List.Pairwise.imp (fun h => of_decide_eq_true h)
        (@List.sorted_mergeSort (String × Json)
          (fun a b => decide (a.1 ≤ b.1))
          (fun a b c hab hbc => decide_eq_true
            (le_trans (of_decide_eq_true hab) (of_decide_eq_true hbc)))
          (fun a b => by rcases le_total a.1 b.1 with h | h <;> simp [h])
          m2)
    · rw [sortHooks]
      exact List.mergeSort_perm m2 _
    · intro hkk
      rw [if_pos hkk] at hw ⊢
      exact setKey_keys fields "hooks" _
    · rw [mutateHooksValue, hw]
      rfl

/-- Witness for C7: a document whose `hooks` value is not an object gets
it replaced, edited, and re-sorted, while the sibling `name` field and a
trailing newline are preserved. -/
theorem C7_mutate_hooks_witness :
    ∃ fields2,
      withHooksMap (.obj [("name", .str "x"), ("hooks", .str "bad")])
          "deno.json"
          (fun m => .ok (("pre-push", Json.str "b")
            :: ("pre-commit", Json.str "a") :: m))
        = .ok (.obj fields2) ∧
      (∀ k, k ≠ "hooks" →
        lookupAssoc fields2 k
          = lookupAssoc [("name", .str "x"), ("hooks", .str "bad")] k) ∧
      lookupAssoc fields2 "hooks"
        = some (.obj (sortHooks [("pre-push", Json.str "b"),
            ("pre-commit", Json.str "a")])) ∧
      (sortHooks [("pre-push", Json.str "b"),
          ("pre-commit", Json.str "a")]).Pairwise
        (fun a b => a.1 ≤ b.1) ∧
      (sortHooks [("pre-push", Json.str "b"),
          ("pre-commit", Json.str "a")]).Perm
        [("pre-push", Json.str "b"), ("pre-commit", Json.str "a")] ∧
      (hasKey [("name", Json.str "x"), ("hooks", Json.str "bad")] "hooks"
          = true →
        fields2.map Prod.fst
          = [("name", Json.str "x"),
             ("hooks", Json.str "bad")].map Prod.fst) ∧
      mutateHooksValue (.obj [("name", .str "x"), ("hooks", .str "bad")])
          "deno.json"
          (fun m => .ok (("pre-push", Json.str "b")
            :: ("pre-commit", Json.str "a") :: m))
        = .ok (prettyJson (.obj fields2) 0 ++ "\n") :=
  C7_mutate_hooks.2 [("name", .str "x"), ("hooks", .str "bad")] "deno.json"
    (fun m => .ok (("pre-push", Json.str "b")
      :: ("pre-commit", Json.str "a") :: m))
    [("pre-push", Json.str "b"), ("pre-commit", Json.str "a")] rfl

end Huk
